import Mathlib

/-!
# EntityBag

A shallow embedding of `EntityBag/main.cpp`: the per-type bucket (`TypeBagBase` / `TypeBag<T>`),
the registry `typeBags` (a `std::unordered_map`), the two `emplace` overloads and the
cross-bucket `iterator`, followed by the properties proved about them.

Conventions.
* `size_t` and `uintptr_t` are 64 bit wide; arithmetic on them is written with `% wordMod`.
* What the C++ standard library and the compiler decide (the value of `sizeof(T)`, where a
  vector puts its buffer, in which order an `unordered_map` iterates its keys) is a parameter,
  collected in `Platform`.
* Allocation failure and constructors that throw are not modelled; `assert` is active (no
  `NDEBUG`).
-/

/-- A `std::type_index`: the identity of a concrete type. -/
abbrev TypeId := Nat

/-- The modulus of `size_t` and `uintptr_t`. -/
def wordMod : Nat := 2 ^ 64

/-- An object as seen through `const EntityBase&`: its dynamic type (`typeid(x)`) and its
state. -/
structure Entity (α : Type) where
  tid : TypeId
  state : α
  deriving DecidableEq, Repr

/-- A `std::vector<T>`: `stride` is `sizeof(T)`, `buf` is what `data()` returns and `items` are
the stored values; element `i` occupies the addresses from `buf + i * stride`. -/
structure StdVector (α : Type) where
  stride : Nat
  buf : Nat
  items : List α
  deriving DecidableEq, Repr

namespace StdVector
variable {α : Type}

/-- The member `size()`. -/
def size (v : StdVector α) : Nat := v.items.length

/-- The member `data()`. -/
def data (v : StdVector α) : Nat := v.buf

/-- The member `emplace_back`: the value is appended; the buffer may move, `newBuf` is where it
is afterwards. -/
def emplace_back (v : StdVector α) (newBuf : Nat) (x : α) : StdVector α :=
  { v with buf := newBuf, items := v.items ++ [x] }

/-- Reading the `T` that starts at address `addr`: defined exactly at the addresses
`buf + i * stride` with `i < size()`. -/
def load (v : StdVector α) (addr : Nat) : Option α :=
  if v.stride = 0 then none
  else if v.buf ≤ addr ∧ (addr - v.buf) % v.stride = 0 then v.items[(addr - v.buf) / v.stride]?
  else none

end StdVector

/-- The struct `TypeBag<T>` with the members it inherits from `TypeBagBase`; `T` is the template
argument. -/
structure TypeBag (α : Type) where
  T : TypeId
  baseElems : Nat
  numElems : Nat
  entitySize : Nat
  elems : StdVector α
  deriving DecidableEq, Repr

/-- What the source leaves to the compiler and the standard library. -/
structure Platform (α : Type) where
  /-- The constant `sizeof(T)`. -/
  sizeofT : TypeId → Nat
  /-- No complete object type has size zero. -/
  sizeofT_pos : ∀ T, 0 < sizeofT T
  /-- The address `data()` of a `std::vector<T>` once it holds `n` elements. -/
  buffer : TypeId → Nat → Nat
  /-- The iteration order of the `std::unordered_map` after a new key went in: the argument is
  the previous iteration order followed by the new entry. -/
  arrange : List (TypeId × TypeBag α) → List (TypeId × TypeBag α)
  /-- Inserting a key neither drops nor duplicates an entry. -/
  arrange_perm : ∀ l, (arrange l).Perm l

namespace TypeBag
variable {α : Type}

/-- The constructor `TypeBag() : TypeBagBase{sizeof(T)} {}` with the default member
initialisers `baseElems = 0`, `numElems = 0` and an empty vector. -/
def new (P : Platform α) (T : TypeId) : TypeBag α :=
  { T := T, baseElems := 0, numElems := 0, entitySize := P.sizeofT T,
    elems := { stride := P.sizeofT T, buf := P.buffer T 0, items := [] } }

/-- The member `size()` of `TypeBagBase`: returns `numElems`. -/
def size (b : TypeBag α) : Nat := b.numElems

/-- The member `entity(index)` of `TypeBagBase`: the address
`baseElems + index * entitySize`, computed in `uintptr_t`. -/
def entity (b : TypeBag α) (index : Nat) : Nat :=
  (b.baseElems + index * b.entitySize) % wordMod

/-- The template member `emplace(Args&&...)` of `TypeBag<T>`: `emplace_back` on the vector, then
`baseElems` and `numElems` are refreshed from `data()` and `size()`. The constructed `T` is
given by its state `v`. -/
def emplace (P : Platform α) (b : TypeBag α) (v : α) : TypeBag α :=
  let elems := b.elems.emplace_back (P.buffer b.T (b.elems.size + 1)) v
  { b with elems := elems, baseElems := elems.data, numElems := elems.size }

/-- The virtual member `emplace(const EntityBase& x)` of `TypeBag<T>`:
`emplace(static_cast<const T&>(x))`. The cast is undefined (`none`) unless the object `x`
refers to is a `T`; otherwise a copy of it is appended. -/
def emplaceBase (P : Platform α) (b : TypeBag α) (x : Entity α) : Option (TypeBag α) :=
  if x.tid = b.T then some (b.emplace P x.state) else none

/-- The object a client finds behind the pointer `addr` into this bag: the `T` stored at that
address of the vector. -/
def load (b : TypeBag α) (addr : Nat) : Option (Entity α) :=
  (b.elems.load addr).map (Entity.mk b.T)

end TypeBag

/-- How a call on the container ends. -/
inductive Outcome (σ : Type) where
  /-- The call returned; `s` is the container afterwards. -/
  | done (s : σ)
  /-- The call ran into `assert(false && ...)`; `s` is the container at that moment. -/
  | assertFailed (s : σ)
  /-- The call has undefined behaviour. -/
  | undefined
  deriving DecidableEq, Repr

/-- The member `find(key)` of `TypeBagMap`, followed by `->second`: the bag stored under `key`,
`none` for `end()`. -/
def findBag {α : Type} (key : TypeId) : List (TypeId × TypeBag α) → Option (TypeBag α)
  | [] => none
  | e :: m => if e.1 = key then some e.2 else findBag key m

/-- Writing through the reference that `find(key)` or `operator[]` gave: the bag stored under
`key` becomes `b`, every other entry and the iteration order stay. -/
def setBag {α : Type} (key : TypeId) (b : TypeBag α) :
    List (TypeId × TypeBag α) → List (TypeId × TypeBag α)
  | [] => []
  | e :: m => if e.1 = key then (e.1, b) :: m else e :: setBag key b m

/-- The class `EntityBag<EntityBase>`: its one data member `typeBags`, listed in the iteration
order of the map. -/
structure EntityBag (α : Type) where
  typeBags : List (TypeId × TypeBag α)
  deriving DecidableEq, Repr

/-- The nested class `iterator`: `currentTypeBag` is a position in the iteration order of
`typeBags` (its length stands for `typeBags.end()`). -/
structure iterator where
  currentTypeBag : Nat
  currentElementIndex : Nat
  deriving DecidableEq, Repr

namespace EntityBag
variable {α : Type}

/-- A default-constructed container. -/
def empty : EntityBag α := ⟨[]⟩

/-- The typed `emplace<T>(args...)`. `typeBags[typeid(T)]` inserts a key that is missing (the
map may then reorder) and `make_unique<TypeBag<T>>()` fills the fresh slot; the slot is cast
to `TypeBag<T>&` (undefined when it holds another `TypeBag`) and the new `T`, given by its state
`v`, is appended. -/
def emplace (P : Platform α) (s : EntityBag α) (T : TypeId) (v : α) : Outcome (EntityBag α) :=
  let m := match findBag T s.typeBags with
    | some _ => s.typeBags
    | none => P.arrange (s.typeBags ++ [(T, TypeBag.new P T)])
  match findBag T m with
  | none => Outcome.undefined
  | some b => if b.T = T then Outcome.done ⟨setBag T (b.emplace P v) m⟩ else Outcome.undefined

/-- The erased `emplace(const EntityBase& x)`: `find(typeid(x))`, then the virtual `emplace` of
the bag found, or the failing `assert` when `find` returns `end()`. -/
def emplaceBase (P : Platform α) (s : EntityBag α) (x : Entity α) : Outcome (EntityBag α) :=
  match findBag x.tid s.typeBags with
  | some b =>
    match b.emplaceBase P x with
    | some b' => Outcome.done ⟨setBag x.tid b' s.typeBags⟩
    | none => Outcome.undefined
  | none => Outcome.assertFailed s

/-- The member `begin()`: `iterator{typeBags.begin()}`, index `0`. -/
def begin (_s : EntityBag α) : iterator := ⟨0, 0⟩

/-- The member `end()`: `iterator{typeBags.end()}`, index `0`. -/
def end_ (s : EntityBag α) : iterator := ⟨s.typeBags.length, 0⟩

end EntityBag

namespace iterator
variable {α : Type}

/-- The member `operator++` on an iterator into `s`. Reading `currentTypeBag->second` at
`typeBags.end()` is undefined (`none`). `size() - 1` and `++currentElementIndex` are `size_t`
arithmetic. -/
def advance (s : EntityBag α) (it : iterator) : Option iterator :=
  match s.typeBags[it.currentTypeBag]? with
  | none => none
  | some e =>
    if it.currentElementIndex < (e.2.size + wordMod - 1) % wordMod then
      some { it with currentElementIndex := (it.currentElementIndex + 1) % wordMod }
    else
      some { currentTypeBag := it.currentTypeBag + 1, currentElementIndex := 0 }

/-- The member `operator*` on an iterator into `s`, the pointer
`currentTypeBag->second->entity(currentElementIndex)`; `none` at `typeBags.end()`. -/
def star (s : EntityBag α) (it : iterator) : Option Nat :=
  match s.typeBags[it.currentTypeBag]? with
  | none => none
  | some e => some (e.2.entity it.currentElementIndex)

/-- The object the client reaches through `*it`. -/
def deref (s : EntityBag α) (it : iterator) : Option (Entity α) :=
  match s.typeBags[it.currentTypeBag]? with
  | none => none
  | some e => e.2.load (e.2.entity it.currentElementIndex)

end iterator

/-- The loop `for (auto e : entityBag)` from the iterator `it` on: while `it != end()` the
object behind `*it` is visited and `++it` is applied. `none` when the loop does something
undefined or is not finished after `fuel` iterations. -/
def traverseFrom {α : Type} (s : EntityBag α) : Nat → iterator → Option (List (Entity α))
  | 0, it => if it = s.end_ then some [] else none
  | fuel + 1, it =>
    if it = s.end_ then some []
    else
      match it.deref s, it.advance s with
      | some e, some it' => (traverseFrom s fuel it').map (e :: ·)
      | _, _ => none

/-- A full traversal, from `begin()` to `end()`. -/
def traversal {α : Type} (s : EntityBag α) (fuel : Nat) : Option (List (Entity α)) :=
  traverseFrom s fuel s.begin

/-- One call on the container, as in `main`. -/
inductive Call (α : Type) where
  /-- The call `emplace<T>(args...)`, the constructed `T` having state `v`. -/
  | typed (T : TypeId) (v : α)
  /-- The call `emplace(x)` through a base reference. -/
  | erased (x : Entity α)
  deriving DecidableEq, Repr

namespace Call
variable {α : Type}

/-- The object a call asks to insert. -/
def entity : Call α → Entity α
  | typed T v => ⟨T, v⟩
  | erased x => x

/-- Performing the call on `s`. -/
def apply (P : Platform α) (s : EntityBag α) : Call α → Outcome (EntityBag α)
  | typed T v => s.emplace P T v
  | erased x => s.emplaceBase P x

end Call

/-- A sequence of calls on `s`. A call that fails its assertion is reported and the sequence
goes on with the container as that call left it; undefined behaviour ends the run (`none`). -/
def run {α : Type} (P : Platform α) : EntityBag α → List (Call α) → Option (EntityBag α)
  | s, [] => some s
  | s, c :: cs =>
    match c.apply P s with
    | Outcome.done s' => run P s' cs
    | Outcome.assertFailed s' => run P s' cs
    | Outcome.undefined => none

/-- The objects inserted by the calls of a sequence that succeeded, in call order. -/
def inserted {α : Type} (P : Platform α) : EntityBag α → List (Call α) → List (Entity α)
  | _, [] => []
  | s, c :: cs =>
    match c.apply P s with
    | Outcome.done s' => c.entity :: inserted P s' cs
    | Outcome.assertFailed s' => inserted P s' cs
    | Outcome.undefined => []

/-- The platform on which the map iterates its keys in the order they were inserted. -/
def appendPlatform : Platform Nat where
  sizeofT := fun T => 8 * (T + 1)
  sizeofT_pos := fun T => Nat.mul_pos (by decide) (Nat.succ_pos T)
  buffer := fun T n => 4096 * (T + 1) + 64 * n
  arrange := fun l => l
  arrange_perm := fun _ => List.Perm.refl _

/-- Moving the last entry of a list to the front. -/
def lastToFront {β : Type} (l : List β) : List β :=
  match l.reverse with
  | [] => []
  | x :: r => x :: r.reverse

/-- The platform on which the map puts a new key in front of the others (what a chained hash
table with one global node list does for a key that hashes to an empty bucket). -/
def frontPlatform : Platform Nat where
  sizeofT := fun T => 8 * (T + 1)
  sizeofT_pos := fun T => Nat.mul_pos (by decide) (Nat.succ_pos T)
  buffer := fun T n => 4096 * (T + 1) + 64 * n
  arrange := lastToFront
  arrange_perm := fun l => by
    unfold lastToFront
    cases h : l.reverse with
    | nil => simp at h; simp [h]
    | cons x r =>
      have h1 : l = (x :: r).reverse := by rw [← h, List.reverse_reverse]
      rw [h1]
      simp only [List.reverse_cons]
      exact (List.perm_append_singleton x r.reverse).symm

/-- The calls of `main`, `Bar` being type `0` and `Baz` type `1`; a state stands for the
constructor arguments. -/
def mainCalls : List (Call Nat) :=
  [Call.typed 0 12, Call.typed 1 1, Call.typed 0 24, Call.typed 0 35, Call.typed 1 2,
   Call.typed 0 46, Call.typed 1 3, Call.erased ⟨1, 4⟩]

/-- One append to a single bag: through the template `emplace` or through the virtual
`emplace(const EntityBase&)`. -/
inductive BagCall (α : Type) where
  /-- The call `emplace(args...)`, the constructed `T` having state `v`. -/
  | typed (v : α)
  /-- The call `emplace(x)` with `x` a base reference. -/
  | erased (x : Entity α)
  deriving DecidableEq, Repr

namespace BagCall
variable {α : Type}

/-- The state of the object an append stores. -/
def value : BagCall α → α
  | typed v => v
  | erased x => x.state

/-- The casts of an append are defined on a `TypeBag<T>`. -/
def castsTo (T : TypeId) : BagCall α → Bool
  | typed _ => true
  | erased x => decide (x.tid = T)

end BagCall

namespace TypeBag
variable {α : Type}

/-- Performing one append on a bag. -/
def append (P : Platform α) (b : TypeBag α) : BagCall α → Option (TypeBag α)
  | BagCall.typed v => some (b.emplace P v)
  | BagCall.erased x => b.emplaceBase P x

/-- Performing a sequence of appends on a bag. -/
def appendAll (P : Platform α) : TypeBag α → List (BagCall α) → Option (TypeBag α)
  | b, [] => some b
  | b, a :: as => (b.append P a).bind (fun b' => appendAll P b' as)

/-- The recorded element size is the stride of the vector and is not zero. -/
def Strided (b : TypeBag α) : Prop :=
  b.entitySize = b.elems.stride ∧ 0 < b.elems.stride

/-- The recorded base and count are those of the vector. -/
def Synced (b : TypeBag α) : Prop :=
  b.Strided ∧ b.baseElems = b.elems.data ∧ b.numElems = b.elems.size

/-- The vector's storage lies inside the 64-bit address space. -/
def InAddressSpace (b : TypeBag α) : Prop :=
  b.elems.buf + b.elems.items.length * b.elems.stride < wordMod

instance (b : TypeBag α) : Decidable b.Strided := by unfold Strided; infer_instance
instance (b : TypeBag α) : Decidable b.Synced := by unfold Synced; infer_instance
instance (b : TypeBag α) : Decidable b.InAddressSpace := by unfold InAddressSpace; infer_instance

/-- The objects of a bag, in storage order. -/
def entities (b : TypeBag α) : List (Entity α) := b.elems.items.map (Entity.mk b.T)

end TypeBag

/-- The keys of a registry, in iteration order. -/
def keysOf {α : Type} (m : List (TypeId × TypeBag α)) : List TypeId := m.map Prod.fst

/-- Every object of a registry: bucket after bucket in iteration order, each in storage
order. -/
def contentsOf {α : Type} (m : List (TypeId × TypeBag α)) : List (Entity α) :=
  m.flatMap (fun e => e.2.entities)

/-- The values stored in the bucket keyed by `key`, none when there is no such bucket. -/
def itemsOf {α : Type} (key : TypeId) (m : List (TypeId × TypeBag α)) : List α :=
  match findBag key m with
  | some b => b.elems.items
  | none => []

/-- The invariant of a registry: keys are unique, the bag under key `T` is a `TypeBag<T>`, and
its recorded stride is that of its vector. -/
def Keyed {α : Type} (m : List (TypeId × TypeBag α)) : Prop :=
  (keysOf m).Nodup ∧ ∀ e ∈ m, e.2.T = e.1 ∧ e.2.Strided

/-- A bag that went through at least one append: synced and not empty. -/
def TypeBag.Filled {α : Type} (b : TypeBag α) : Prop :=
  b.Synced ∧ b.elems.items ≠ []

namespace EntityBag
variable {α : Type}

/-- The keys of the container's registry, in iteration order. -/
def keys (s : EntityBag α) : List TypeId := keysOf s.typeBags

/-- Every stored object, in iteration order. -/
def contents (s : EntityBag α) : List (Entity α) := contentsOf s.typeBags

/-- The invariant of the container. -/
def WF (s : EntityBag α) : Prop :=
  Keyed s.typeBags ∧ ∀ e ∈ s.typeBags, e.2.Filled

/-- Every bucket's storage lies inside the 64-bit address space. -/
def InAddressSpace (s : EntityBag α) : Prop :=
  ∀ e ∈ s.typeBags, e.2.InAddressSpace

instance (s : EntityBag α) : Decidable s.InAddressSpace := by
  unfold InAddressSpace; infer_instance

end EntityBag

/-- What a successful insertion of the object `o` into `s` leaves behind, `s'` being the
container afterwards: the invariant, one more object, and `o` at the end of its bucket. -/
structure Inserts {α : Type} (s s' : EntityBag α) (o : Entity α) : Prop where
  wf : s'.WF
  perm : s'.contents.Perm (s.contents ++ [o])
  items : ∀ k, itemsOf k s'.typeBags =
    itemsOf k s.typeBags ++ (if o.tid = k then [o.state] else [])

/-- The number of calls of a sequence that succeeded. -/
def succeeded {α : Type} (P : Platform α) : EntityBag α → List (Call α) → Nat
  | _, [] => 0
  | s, c :: cs =>
    match c.apply P s with
    | Outcome.done s' => succeeded P s' cs + 1
    | Outcome.assertFailed s' => succeeded P s' cs
    | Outcome.undefined => 0

/-- A sequence of objects is grouped by type: between two objects of one type there is no
object of another. -/
def Grouped {α : Type} (l : List (Entity α)) : Prop :=
  ∀ (i j k : Nat) (a b c : Entity α), i < j → j < k →
    l[i]? = some a → l[j]? = some b → l[k]? = some c → a.tid = c.tid → b.tid = a.tid

/-- The sequence `objs` runs through the types in the order in which `hist` first shows them:
when the first object of type `A` in `hist` comes before the first of type `B`, every object
of type `A` in `objs` comes before every object of type `B`. -/
def FirstSeenFirst {α : Type} (hist objs : List (Entity α)) : Prop :=
  ∀ A B : TypeId, (hist.map Entity.tid).indexOf A < (hist.map Entity.tid).indexOf B →
    ∀ (i j : Nat) (a b : Entity α),
      objs[i]? = some a → objs[j]? = some b → a.tid = A → b.tid = B → i < j

namespace iterator
variable {α : Type}

/-- Applying `operator++` `n` times to an iterator into `s`; `none` once an application is
undefined. -/
def advanceN (s : EntityBag α) : Nat → iterator → Option iterator
  | 0, it => some it
  | n + 1, it => (it.advance s).bind (advanceN s n)

/-- The iterator points at an existing bucket and its index is below that bucket's `size()`. -/
def InRange (s : EntityBag α) (it : iterator) : Prop :=
  ∃ e, s.typeBags[it.currentTypeBag]? = some e ∧ it.currentElementIndex < e.2.size

end iterator

/-- The total number of stored elements: the sum of `size()` over all buckets. -/
def EntityBag.total {α : Type} (s : EntityBag α) : Nat :=
  (s.typeBags.map (fun e => e.2.size)).sum

/-- The container a call returned with, `none` for a call that did not return. -/
def Outcome.result {σ : Type} : Outcome σ → Option σ
  | Outcome.done s => some s
  | Outcome.assertFailed _ => none
  | Outcome.undefined => none

/-- A registry state that no sequence of calls produces: the first bucket is a freshly
constructed `TypeBag<0>` with no element, the second holds one `1`. -/
def emptyBucketBag : EntityBag Nat :=
  ⟨[(0, TypeBag.new appendPlatform 0),
    (1, (TypeBag.new appendPlatform 1).emplace appendPlatform 5)]⟩

/-! ## The bag -/

namespace TypeBag
variable {α : Type}

theorem strided_new (P : Platform α) (T : TypeId) : (new P T).Strided :=
  ⟨rfl, P.sizeofT_pos T⟩

theorem synced_emplace (P : Platform α) (b : TypeBag α) (v : α) (h : b.Strided) :
    (b.emplace P v).Synced :=
  ⟨⟨h.1, h.2⟩, rfl, rfl⟩

theorem items_emplace (P : Platform α) (b : TypeBag α) (v : α) :
    (b.emplace P v).elems.items = b.elems.items ++ [v] := rfl

theorem T_emplace (P : Platform α) (b : TypeBag α) (v : α) : (b.emplace P v).T = b.T := rfl

theorem entities_emplace (P : Platform α) (b : TypeBag α) (v : α) :
    (b.emplace P v).entities = b.entities ++ [⟨b.T, v⟩] := by
  simp [entities, items_emplace, T_emplace]

/-- In a synced bag inside the address space, the pointer `entity(i)` of an index in range
leads to the `i`-th stored value. -/
theorem load_entity (b : TypeBag α) (hs : b.Synced) (ha : b.InAddressSpace) (i : Nat)
    (hi : i < b.elems.items.length) :
    b.load (b.entity i) = some ⟨b.T, b.elems.items[i]⟩ := by
  obtain ⟨⟨hsz, hpos⟩, hbase, _⟩ := hs
  have hle : i * b.elems.stride ≤ b.elems.items.length * b.elems.stride :=
    Nat.mul_le_mul_right _ (Nat.le_of_lt hi)
  have haddr : b.entity i = b.elems.buf + i * b.elems.stride := by
    unfold entity
    rw [hsz, hbase]
    exact Nat.mod_eq_of_lt (lt_of_le_of_lt (Nat.add_le_add_left hle _) ha)
  have hne : b.elems.stride ≠ 0 := Nat.pos_iff_ne_zero.mp hpos
  simp only [load, StdVector.load, haddr, hne, if_false, Nat.le_add_right, Nat.add_sub_cancel_left,
    Nat.mul_mod_left, Nat.mul_mod_left, true_and]
  simp [Nat.mul_div_cancel _ hpos, List.getElem?_eq_getElem hi]

end TypeBag

namespace TypeBag
variable {α : Type}

theorem appendAll_spec (P : Platform α) (as : List (BagCall α)) :
    ∀ b0 : TypeBag α, b0.Strided → (∀ a ∈ as, a.castsTo b0.T = true) →
      ∃ b, appendAll P b0 as = some b ∧ b.T = b0.T ∧ b.Strided ∧
        b.elems.items = b0.elems.items ++ as.map BagCall.value ∧ (as ≠ [] → b.Synced) := by
  induction as with
  | nil => intro b0 h0 _; exact ⟨b0, rfl, rfl, h0, by simp, fun h => absurd rfl h⟩
  | cons a as ih =>
    intro b0 h0 hc
    have hstep : b0.append P a = some (b0.emplace P a.value) := by
      cases a with
      | typed v => rfl
      | erased x =>
        have hx : x.tid = b0.T := by simpa [BagCall.castsTo] using hc _ (List.mem_cons_self _ _)
        simp [append, emplaceBase, hx, BagCall.value]
    have h1 : (b0.emplace P a.value).Strided := (synced_emplace P b0 a.value h0).1
    obtain ⟨b, hb, hT, hst, hit, hsy⟩ :=
      ih (b0.emplace P a.value) h1 (fun c hcm => hc c (List.mem_cons_of_mem _ hcm))
    refine ⟨b, ?_, hT, hst, ?_, ?_⟩
    · simp [appendAll, hstep, hb]
    · rw [hit, items_emplace]; simp
    · intro _
      cases as with
      | nil =>
        simp only [appendAll, Option.some.injEq] at hb
        rw [← hb]
        exact synced_emplace P b0 a.value h0
      | cons c cs => exact hsy (List.cons_ne_nil _ _)

end TypeBag

/-- C10. A bag `TypeBag<T>` that received the appends `as` (template `emplace` or virtual
`emplace` of an object whose dynamic type is `T`): `size()` returns their number, the recorded
count is `elems.size()` and, after at least one append, the recorded base is `elems.data()`;
with the storage inside the address space, `entity(i)` leads to the `i`-th appended value. -/
theorem typeBag_appends_recorded {α : Type} (P : Platform α) (T : TypeId)
    (as : List (BagCall α)) (hcast : ∀ a ∈ as, a.castsTo T = true) :
    ∃ b, TypeBag.appendAll P (TypeBag.new P T) as = some b ∧
      b.size = as.length ∧ b.numElems = b.elems.size ∧
      (as ≠ [] → b.baseElems = b.elems.data) ∧
      (b.InAddressSpace → ∀ (i : Nat) (hi : i < as.length),
        b.load (b.entity i) = some ⟨T, (as[i]).value⟩) := by
  obtain ⟨b, hb, hT, _, hit, hsy⟩ :=
    TypeBag.appendAll_spec P as (TypeBag.new P T) (TypeBag.strided_new P T) hcast
  have hitems : b.elems.items = as.map BagCall.value := by simpa [TypeBag.new] using hit
  have hnum : b.numElems = b.elems.size := by
    cases as with
    | nil =>
      simp only [TypeBag.appendAll, Option.some.injEq] at hb
      rw [← hb]; rfl
    | cons c cs => exact (hsy (List.cons_ne_nil _ _)).2.2
  refine ⟨b, hb, ?_, hnum, fun hne => (hsy hne).2.1, ?_⟩
  · rw [TypeBag.size, hnum, StdVector.size, hitems, List.length_map]
  · intro ha i hi
    have hne : as ≠ [] := by rintro rfl; exact absurd hi (Nat.not_lt_zero _)
    have hi' : i < b.elems.items.length := by rw [hitems, List.length_map]; exact hi
    rw [TypeBag.load_entity b (hsy hne) ha i hi']
    have hT' : b.T = T := hT
    simp [hT', hitems]

/-- Three appends to a fresh `TypeBag<1>`, the last one erased. -/
theorem typeBag_appends_recorded_witness :
    ∃ b, TypeBag.appendAll appendPlatform (TypeBag.new appendPlatform 1)
        [BagCall.typed 1, BagCall.typed 2, BagCall.erased ⟨1, 4⟩] = some b ∧
      b.size = 3 ∧ b.numElems = b.elems.size ∧ b.baseElems = b.elems.data ∧
      b.InAddressSpace ∧ b.load (b.entity 0) = some ⟨1, 1⟩ ∧
      b.load (b.entity 2) = some ⟨1, 4⟩ := by
  obtain ⟨b, h1, h2, h3, h4, h5⟩ := typeBag_appends_recorded appendPlatform 1
    [BagCall.typed 1, BagCall.typed 2, BagCall.erased ⟨1, 4⟩] (by decide)
  have hb : b = (TypeBag.appendAll appendPlatform (TypeBag.new appendPlatform 1)
      [BagCall.typed 1, BagCall.typed 2, BagCall.erased ⟨1, 4⟩]).getD
        (TypeBag.new appendPlatform 1) := by rw [h1]; rfl
  have ha : b.InAddressSpace := by rw [hb]; decide
  exact ⟨b, h1, h2, h3, h4 (by decide), ha, h5 ha 0 (by decide), h5 ha 2 (by decide)⟩

/-! ## The registry -/

section registry
variable {α : Type}

theorem findBag_eq_none_iff (k : TypeId) (m : List (TypeId × TypeBag α)) :
    findBag k m = none ↔ k ∉ keysOf m := by
  induction m with
  | nil => simp [findBag, keysOf]
  | cons e m ih =>
    by_cases h : e.1 = k
    · simp [findBag, keysOf, h]
    · have h' : ¬ k = e.1 := fun hk => h hk.symm
      simpa [findBag, keysOf, h, h'] using ih

theorem findBag_mem {k : TypeId} {b : TypeBag α} {m : List (TypeId × TypeBag α)}
    (h : findBag k m = some b) : (k, b) ∈ m := by
  induction m with
  | nil => simp [findBag] at h
  | cons e m ih =>
    by_cases hk : e.1 = k
    · simp only [findBag, hk, if_true, Option.some.injEq] at h
      have : e = (k, b) := by rw [← hk, ← h]
      simp [this]
    · simp only [findBag, hk, if_false] at h
      exact List.mem_cons_of_mem _ (ih h)

theorem findBag_of_mem {k : TypeId} {b : TypeBag α} {m : List (TypeId × TypeBag α)}
    (hn : (keysOf m).Nodup) (h : (k, b) ∈ m) : findBag k m = some b := by
  induction m with
  | nil => simp at h
  | cons e m ih =>
    simp only [keysOf, List.map_cons, List.nodup_cons] at hn
    rcases List.mem_cons.mp h with h | h
    · subst h; simp [findBag]
    · have hne : e.1 ≠ k := by
        intro hk
        exact hn.1 (hk ▸ List.mem_map_of_mem Prod.fst h)
      simp only [findBag, hne, if_false]
      exact ih hn.2 h

theorem keysOf_perm {m m' : List (TypeId × TypeBag α)} (h : m.Perm m') :
    (keysOf m).Perm (keysOf m') := h.map _

theorem findBag_perm {m m' : List (TypeId × TypeBag α)} (hn : (keysOf m).Nodup)
    (h : m.Perm m') (k : TypeId) : findBag k m = findBag k m' := by
  have hn' : (keysOf m').Nodup := (keysOf_perm h).nodup_iff.mp hn
  cases hf : findBag k m with
  | none =>
    have : k ∉ keysOf m' := fun hk =>
      (findBag_eq_none_iff k m).mp hf ((keysOf_perm h).mem_iff.mpr hk)
    exact ((findBag_eq_none_iff k m').mpr this).symm
  | some b => exact (findBag_of_mem hn' (h.mem_iff.mp (findBag_mem hf))).symm

theorem keysOf_setBag (k : TypeId) (b : TypeBag α) (m : List (TypeId × TypeBag α)) :
    keysOf (setBag k b m) = keysOf m := by
  induction m with
  | nil => rfl
  | cons e m ih =>
    by_cases h : e.1 = k
    · simp [setBag, keysOf, h]
    · simp only [setBag, h, if_false, keysOf, List.map_cons] at ih ⊢
      rw [ih]

theorem length_setBag (k : TypeId) (b : TypeBag α) (m : List (TypeId × TypeBag α)) :
    (setBag k b m).length = m.length := by
  have := congrArg List.length (keysOf_setBag k b m)
  simpa [keysOf] using this

theorem mem_setBag {k : TypeId} {b : TypeBag α} {m : List (TypeId × TypeBag α)}
    {e : TypeId × TypeBag α} (hn : (keysOf m).Nodup) (h : e ∈ setBag k b m) :
    e = (k, b) ∨ (e ∈ m ∧ e.1 ≠ k) := by
  induction m with
  | nil => simp [setBag] at h
  | cons a m ih =>
    simp only [keysOf, List.map_cons, List.nodup_cons] at hn
    by_cases hk : a.1 = k
    · simp only [setBag, hk, if_true, List.mem_cons] at h
      rcases h with h | h
      · exact Or.inl h
      · refine Or.inr ⟨List.mem_cons_of_mem _ h, fun he => hn.1 ?_⟩
        rw [hk, ← he]
        exact List.mem_map_of_mem Prod.fst h
    · simp only [setBag, hk, if_false, List.mem_cons] at h
      rcases h with h | h
      · exact Or.inr ⟨by simp [h], by rw [h]; exact hk⟩
      · rcases ih hn.2 h with h | h
        · exact Or.inl h
        · exact Or.inr ⟨List.mem_cons_of_mem _ h.1, h.2⟩

theorem findBag_setBag_self {k : TypeId} {b0 : TypeBag α} (b : TypeBag α)
    {m : List (TypeId × TypeBag α)} (h : findBag k m = some b0) :
    findBag k (setBag k b m) = some b := by
  induction m with
  | nil => simp [findBag] at h
  | cons e m ih =>
    by_cases hk : e.1 = k
    · simp [setBag, findBag, hk]
    · simp only [findBag, hk, if_false] at h
      simp only [setBag, findBag, hk, if_false]
      exact ih h

theorem findBag_setBag_other {k k' : TypeId} (b : TypeBag α) (m : List (TypeId × TypeBag α))
    (hne : k' ≠ k) : findBag k' (setBag k b m) = findBag k' m := by
  induction m with
  | nil => rfl
  | cons e m ih =>
    by_cases hk : e.1 = k
    · have hk' : ¬ k = k' := fun h => hne h.symm
      simp [setBag, findBag, hk, hk']
    · simp only [setBag, hk, if_false, findBag]
      rw [ih]

/-- Appending to the bag found under a key adds the new object to the contents, up to the
order of the buckets. -/
theorem contentsOf_setBag_emplace (P : Platform α) {k : TypeId} {b : TypeBag α} (v : α)
    {m : List (TypeId × TypeBag α)} (h : findBag k m = some b) :
    (contentsOf (setBag k (b.emplace P v) m)).Perm (contentsOf m ++ [⟨b.T, v⟩]) := by
  induction m with
  | nil => simp [findBag] at h
  | cons e m ih =>
    by_cases hk : e.1 = k
    · simp only [findBag, hk, if_true, Option.some.injEq] at h
      simp only [setBag, hk, if_true, contentsOf, List.flatMap_cons,
        TypeBag.entities_emplace, h, List.append_assoc]
      refine List.Perm.append_left _ ?_
      exact List.perm_append_comm
    · simp only [findBag, hk, if_false] at h
      simp only [setBag, hk, if_false, contentsOf, List.flatMap_cons, List.append_assoc]
      exact List.Perm.append_left _ (ih h)

end registry

/-! ## One call -/

section step
variable {α : Type}

theorem itemsOf_setBag_emplace (P : Platform α) {k : TypeId} {b : TypeBag α} (v : α)
    {m : List (TypeId × TypeBag α)} (h : findBag k m = some b) (k' : TypeId) :
    itemsOf k' (setBag k (b.emplace P v) m) =
      itemsOf k' m ++ (if k = k' then [v] else []) := by
  by_cases hk : k = k'
  · subst hk
    simp [itemsOf, findBag_setBag_self _ h, h, TypeBag.items_emplace]
  · have hk' : k' ≠ k := fun e => hk e.symm
    simp [itemsOf, findBag_setBag_other _ _ hk', hk]

theorem wf_setBag_emplace (P : Platform α) {k : TypeId} {b : TypeBag α} (v : α)
    {m : List (TypeId × TypeBag α)} (hm : Keyed m)
    (hf : ∀ e ∈ m, e.1 ≠ k → e.2.Filled) (h : findBag k m = some b) :
    EntityBag.WF ⟨setBag k (b.emplace P v) m⟩ := by
  have hb := hm.2 _ (findBag_mem h)
  refine ⟨⟨?_, ?_⟩, ?_⟩
  · show (keysOf (setBag k (b.emplace P v) m)).Nodup
    rw [keysOf_setBag]; exact hm.1
  · intro e he
    rcases mem_setBag hm.1 he with rfl | ⟨he, _⟩
    · exact ⟨hb.1, (TypeBag.synced_emplace P b v hb.2).1⟩
    · exact hm.2 e he
  · intro e he
    rcases mem_setBag hm.1 he with rfl | ⟨he, hne⟩
    · exact ⟨TypeBag.synced_emplace P b v hb.2, by simp [TypeBag.items_emplace]⟩
    · exact hf e he hne

theorem contentsOf_append (m m' : List (TypeId × TypeBag α)) :
    contentsOf (m ++ m') = contentsOf m ++ contentsOf m' := by
  simp [contentsOf]

theorem findBag_append_other (m : List (TypeId × TypeBag α)) {k T : TypeId} {b : TypeBag α}
    (hk : k ≠ T) : findBag k (m ++ [(T, b)]) = findBag k m := by
  induction m with
  | nil => simp [findBag, Ne.symm hk]
  | cons e m ih =>
    by_cases he : e.1 = k
    · simp [findBag, he]
    · simp only [List.cons_append, findBag, he, if_false]; exact ih

/-- The registry right after `typeBags[typeid(T)]` created the slot of a missing key. -/
theorem arrange_new (P : Platform α) {m : List (TypeId × TypeBag α)} {T : TypeId}
    (hm : Keyed m) (hf : ∀ e ∈ m, e.2.Filled) (hT : findBag T m = none) :
    Keyed (P.arrange (m ++ [(T, TypeBag.new P T)])) ∧
    (∀ e ∈ P.arrange (m ++ [(T, TypeBag.new P T)]), e.1 ≠ T → e.2.Filled) ∧
    findBag T (P.arrange (m ++ [(T, TypeBag.new P T)])) = some (TypeBag.new P T) ∧
    (contentsOf (P.arrange (m ++ [(T, TypeBag.new P T)]))).Perm (contentsOf m) ∧
    (∀ k, k ≠ T → findBag k (P.arrange (m ++ [(T, TypeBag.new P T)])) = findBag k m) := by
  have hperm := P.arrange_perm (m ++ [(T, TypeBag.new P T)])
  have hTk : T ∉ keysOf m := (findBag_eq_none_iff T m).mp hT
  have hnd : (keysOf (m ++ [(T, TypeBag.new P T)])).Nodup := by
    simp only [keysOf, List.map_append, List.map_cons, List.map_nil]
    refine List.Nodup.append hm.1 (List.nodup_singleton _) ?_
    intro a ha ha'
    rw [List.mem_singleton] at ha'
    exact hTk (ha' ▸ ha)
  have hnd' : (keysOf (P.arrange (m ++ [(T, TypeBag.new P T)]))).Nodup :=
    (keysOf_perm hperm).nodup_iff.mpr hnd
  have hmem : ∀ e ∈ P.arrange (m ++ [(T, TypeBag.new P T)]),
      e ∈ m ∨ e = (T, TypeBag.new P T) := by
    intro e he
    have := hperm.mem_iff.mp he
    simpa using this
  refine ⟨⟨hnd', ?_⟩, ?_, ?_, ?_, ?_⟩
  · intro e he
    rcases hmem e he with h | rfl
    · exact hm.2 e h
    · exact ⟨rfl, TypeBag.strided_new P T⟩
  · intro e he hne
    rcases hmem e he with h | rfl
    · exact hf e h
    · exact absurd rfl hne
  · exact findBag_of_mem hnd' (hperm.mem_iff.mpr (by simp))
  · have h1 : (contentsOf (P.arrange (m ++ [(T, TypeBag.new P T)]))).Perm
        (contentsOf (m ++ [(T, TypeBag.new P T)])) := List.Perm.flatMap_right _ hperm
    have h2 : contentsOf (m ++ [(T, TypeBag.new P T)]) = contentsOf m := by
      simp [contentsOf, TypeBag.entities, TypeBag.new]
    rw [h2] at h1; exact h1
  · intro k hk
    rw [findBag_perm hnd' hperm k]
    exact findBag_append_other m hk

/-- The typed `emplace<T>` on a well-formed container returns and inserts the object. -/
theorem emplace_inserts (P : Platform α) {s : EntityBag α} (hs : s.WF) (T : TypeId) (v : α) :
    ∃ s', s.emplace P T v = Outcome.done s' ∧ Inserts s s' ⟨T, v⟩ := by
  cases hT : findBag T s.typeBags with
  | some b =>
    have hb := hs.1.2 _ (findBag_mem hT)
    have hbT : b.T = T := hb.1
    refine ⟨⟨setBag T (b.emplace P v) s.typeBags⟩, ?_, ?_, ?_, ?_⟩
    · simp [EntityBag.emplace, hT, hbT]
    · exact wf_setBag_emplace P v hs.1 (fun e he _ => hs.2 e he) hT
    · have := contentsOf_setBag_emplace P v hT
      rw [hbT] at this; exact this
    · intro k; exact itemsOf_setBag_emplace P v hT k
  | none =>
    obtain ⟨hk, hf, hfind, hperm, hother⟩ := arrange_new P hs.1 hs.2 hT
    refine ⟨⟨setBag T ((TypeBag.new P T).emplace P v)
      (P.arrange (s.typeBags ++ [(T, TypeBag.new P T)]))⟩, ?_, ?_, ?_, ?_⟩
    · have hnT : (TypeBag.new P T).T = T := rfl
      simp [EntityBag.emplace, hT, hfind, hnT]
    · exact wf_setBag_emplace P v hk hf hfind
    · have h1 := contentsOf_setBag_emplace P v hfind
      exact h1.trans (List.Perm.append_right _ hperm)
    · intro k
      rw [itemsOf_setBag_emplace P v hfind k]
      congr 1
      by_cases hkT : k = T
      · subst hkT
        have hni : (TypeBag.new P k).elems.items = [] := rfl
        simp [itemsOf, hfind, hT, hni]
      · simp [itemsOf, hother k hkT]

/-- The erased `emplace(x)` that finds a bag does what the typed `emplace` of `x`'s type
does. -/
theorem emplaceBase_eq_emplace (P : Platform α) (s : EntityBag α) (x : Entity α)
    {b : TypeBag α} (h : findBag x.tid s.typeBags = some b) :
    s.emplaceBase P x = s.emplace P x.tid x.state := by
  by_cases hb : b.T = x.tid
  · simp [EntityBag.emplaceBase, EntityBag.emplace, h, TypeBag.emplaceBase, hb]
  · have hb' : ¬ x.tid = b.T := fun e => hb e.symm
    simp [EntityBag.emplaceBase, EntityBag.emplace, h, TypeBag.emplaceBase, hb, hb']

theorem emplaceBase_missing (P : Platform α) (s : EntityBag α) (x : Entity α)
    (h : findBag x.tid s.typeBags = none) : s.emplaceBase P x = Outcome.assertFailed s := by
  simp [EntityBag.emplaceBase, h]

/-- A call on a well-formed container: either the failing erased `emplace` of a type without
bucket, which changes nothing, or a successful insertion. -/
theorem apply_cases (P : Platform α) {s : EntityBag α} (hs : s.WF) (c : Call α) :
    (findBag c.entity.tid s.typeBags = none ∧ c.apply P s = Outcome.assertFailed s) ∨
    (∃ s', c.apply P s = Outcome.done s' ∧ Inserts s s' c.entity) := by
  cases c with
  | typed T v => exact Or.inr (emplace_inserts P hs T v)
  | erased x =>
    cases h : findBag x.tid s.typeBags with
    | none => exact Or.inl ⟨h, emplaceBase_missing P s x h⟩
    | some b =>
      refine Or.inr ?_
      obtain ⟨s', h1, h2⟩ := emplace_inserts P hs x.tid x.state
      exact ⟨s', by simp only [Call.apply]; rw [emplaceBase_eq_emplace P s x h]; exact h1, h2⟩

end step

/-! ## Sequences of calls -/

section runs
variable {α : Type}

theorem wf_empty : (EntityBag.empty : EntityBag α).WF :=
  ⟨⟨List.nodup_nil, fun _ h => absurd h (List.not_mem_nil _)⟩,
    fun _ h => absurd h (List.not_mem_nil _)⟩

/-- A sequence of calls on a well-formed container never does anything undefined; its
successful calls account for everything that was added. -/
theorem run_spec (P : Platform α) (cs : List (Call α)) :
    ∀ s : EntityBag α, s.WF →
      ∃ s', run P s cs = some s' ∧ s'.WF ∧
        s'.contents.Perm (s.contents ++ inserted P s cs) ∧
        ∀ k, itemsOf k s'.typeBags = itemsOf k s.typeBags ++
          ((inserted P s cs).filter (fun o => decide (o.tid = k))).map Entity.state := by
  induction cs with
  | nil => intro s hs; exact ⟨s, rfl, hs, by simp [inserted], by simp [inserted]⟩
  | cons c cs ih =>
    intro s hs
    rcases apply_cases P hs c with ⟨_, hfail⟩ | ⟨s1, hdone, hins⟩
    · obtain ⟨s', h1, h2, h3, h4⟩ := ih s hs
      exact ⟨s', by simp [run, hfail, h1], h2, by simpa [inserted, hfail] using h3,
        by simpa [inserted, hfail] using h4⟩
    · obtain ⟨s', h1, h2, h3, h4⟩ := ih s1 hins.wf
      refine ⟨s', by simp [run, hdone, h1], h2, ?_, ?_⟩
      · simp only [inserted, hdone]
        refine h3.trans ?_
        have := List.Perm.append_right (inserted P s1 cs) hins.perm
        simpa using this
      · intro k
        simp only [inserted, hdone]
        rw [h4 k, hins.items k]
        by_cases hk : c.entity.tid = k <;> simp [hk, List.filter_cons]

end runs

/-! ## The iterator -/

section traversing
variable {α : Type}

theorem TypeBag.length_lt_wordMod {b : TypeBag α} (hs : b.Strided) (ha : b.InAddressSpace) :
    b.elems.items.length < wordMod := by
  have h1 : b.elems.items.length * 1 ≤ b.elems.items.length * b.elems.stride :=
    Nat.mul_le_mul_left _ hs.2
  unfold TypeBag.InAddressSpace at ha
  omega

/-- On an entry of a well-formed container, `*it` at an index in range reaches the stored
object. -/
theorem deref_at {s : EntityBag α} (hs : s.WF) (ha : s.InAddressSpace) {c i : Nat}
    {e : TypeId × TypeBag α} (he : s.typeBags[c]? = some e) (hi : i < e.2.elems.items.length) :
    iterator.deref s ⟨c, i⟩ = some ⟨e.2.T, e.2.elems.items[i]⟩ := by
  have hmem := List.getElem?_mem he
  simp only [iterator.deref, he]
  exact TypeBag.load_entity e.2 (hs.2 e hmem).1 (ha e hmem) i hi

/-- On an entry of a well-formed container, `++it` at an index in range moves to the next index
of the bag or, from its last index, to the start of the next bag. -/
theorem advance_at {s : EntityBag α} (hs : s.WF) (ha : s.InAddressSpace) {c i : Nat}
    {e : TypeId × TypeBag α} (he : s.typeBags[c]? = some e) (hi : i < e.2.elems.items.length) :
    iterator.advance s ⟨c, i⟩ =
      some (if i + 1 < e.2.elems.items.length then ⟨c, i + 1⟩ else ⟨c + 1, 0⟩) := by
  have hmem := List.getElem?_mem he
  have hsy := (hs.2 e hmem).1
  have hlt := TypeBag.length_lt_wordMod hsy.1 (ha e hmem)
  have hsize : e.2.size = e.2.elems.items.length := hsy.2.2
  have hw : wordMod = 2 ^ 64 := rfl
  simp only [iterator.advance, he, hsize]
  have hsub : (e.2.elems.items.length + wordMod - 1) % wordMod = e.2.elems.items.length - 1 := by
    rw [hw] at hlt ⊢; omega
  rw [hsub]
  by_cases h : i + 1 < e.2.elems.items.length
  · have h1 : i < e.2.elems.items.length - 1 := by omega
    have h2 : (i + 1) % wordMod = i + 1 := Nat.mod_eq_of_lt (by omega)
    simp [h, h1, h2]
  · have h1 : ¬ i < e.2.elems.items.length - 1 := by omega
    simp [h, h1]

theorem traverseFrom_end (s : EntityBag α) (fuel : Nat) :
    traverseFrom s fuel s.end_ = some [] := by
  cases fuel <;> simp [traverseFrom]

/-- The loop from a position inside a bag visits the rest of that bag and then the bags after
it. -/
theorem traverseFrom_at {s : EntityBag α} (hs : s.WF) (ha : s.InAddressSpace) (fuel : Nat) :
    ∀ (c i : Nat) (e : TypeId × TypeBag α), s.typeBags[c]? = some e →
      i < e.2.elems.items.length →
      (e.2.entities.drop i ++ contentsOf (s.typeBags.drop (c + 1))).length ≤ fuel →
      traverseFrom s fuel ⟨c, i⟩ =
        some (e.2.entities.drop i ++ contentsOf (s.typeBags.drop (c + 1))) := by
  induction fuel with
  | zero =>
    intro c i e _ hi hlen
    have : i < e.2.entities.length := by simpa [TypeBag.entities] using hi
    simp only [List.length_append, List.length_drop] at hlen
    omega
  | succ fuel ih =>
    intro c i e he hi hlen
    have hc : c < s.typeBags.length := (List.getElem?_eq_some.mp he).1
    have hne : (⟨c, i⟩ : iterator) ≠ s.end_ := by
      intro h
      have := congrArg iterator.currentTypeBag h
      simp only [EntityBag.end_] at this
      omega
    have hi' : i < e.2.entities.length := by simpa [TypeBag.entities] using hi
    have hdrop : e.2.entities.drop i =
        ⟨e.2.T, e.2.elems.items[i]⟩ :: e.2.entities.drop (i + 1) := by
      rw [List.drop_eq_getElem_cons hi']
      simp [TypeBag.entities]
    rw [hdrop] at hlen ⊢
    simp only [List.cons_append, List.length_cons] at hlen
    simp only [traverseFrom, hne, if_false, deref_at hs ha he hi, advance_at hs ha he hi]
    by_cases hnext : i + 1 < e.2.elems.items.length
    · simp only [hnext, if_true]
      rw [ih c (i + 1) e he hnext (by omega)]
      simp
    · simp only [hnext, if_false]
      have hel : e.2.entities.length = e.2.elems.items.length := by simp [TypeBag.entities]
      have hnil : e.2.entities.drop (i + 1) = [] :=
        List.drop_eq_nil_of_le (by omega)
      rw [hnil] at hlen ⊢
      cases he' : s.typeBags[c + 1]? with
      | none =>
        have hlen' : s.typeBags.length ≤ c + 1 := List.getElem?_eq_none_iff.mp he'
        have hend : (⟨c + 1, 0⟩ : iterator) = s.end_ := by
          simp only [EntityBag.end_]
          congr 1; omega
        rw [hend, traverseFrom_end, List.drop_eq_nil_of_le hlen']
        simp [contentsOf]
      | some e' =>
        have hc' : c + 1 < s.typeBags.length := (List.getElem?_eq_some.mp he').1
        have hd : s.typeBags.drop (c + 1) = e' :: s.typeBags.drop (c + 1 + 1) := by
          rw [List.drop_eq_getElem_cons hc']
          congr 1
          exact (List.getElem?_eq_some.mp he').2
        have hfill := (hs.2 e' (List.getElem?_mem he')).2
        have hpos : 0 < e'.2.elems.items.length := List.length_pos.mpr hfill
        have hc2 : contentsOf (s.typeBags.drop (c + 1)) =
            e'.2.entities.drop 0 ++ contentsOf (s.typeBags.drop (c + 1 + 1)) := by
          rw [hd]; simp [contentsOf]
        rw [hc2] at hlen ⊢
        rw [ih (c + 1) 0 e' he' hpos (by simpa using hlen)]
        simp

/-- A full traversal of a well-formed container inside the address space ends and yields the
stored objects, bag after bag in the iteration order of the registry. -/
theorem traversal_eq_contents {s : EntityBag α} (hs : s.WF) (ha : s.InAddressSpace)
    {fuel : Nat} (hfuel : s.contents.length ≤ fuel) :
    traversal s fuel = some s.contents := by
  unfold traversal EntityBag.begin
  cases he : s.typeBags[0]? with
  | none =>
    have hlen : s.typeBags.length ≤ 0 := List.getElem?_eq_none_iff.mp he
    have hnil : s.typeBags = [] := List.length_eq_zero.mp (Nat.le_zero.mp hlen)
    have hend : (⟨0, 0⟩ : iterator) = s.end_ := by simp [EntityBag.end_, hnil]
    rw [hend, traverseFrom_end]
    simp [EntityBag.contents, contentsOf, hnil]
  | some e =>
    have hc : 0 < s.typeBags.length := (List.getElem?_eq_some.mp he).1
    have hd : s.typeBags = e :: s.typeBags.drop 1 := by
      have := List.drop_eq_getElem_cons hc
      rw [List.drop_zero] at this
      rw [this]
      congr 1
      exact (List.getElem?_eq_some.mp he).2
    have hfill := (hs.2 e (List.getElem?_mem he)).2
    have hpos : 0 < e.2.elems.items.length := List.length_pos.mpr hfill
    have hcont : s.contents = e.2.entities.drop 0 ++ contentsOf (s.typeBags.drop (0 + 1)) := by
      unfold EntityBag.contents
      conv_lhs => rw [hd]
      simp [contentsOf]
    rw [hcont] at hfuel ⊢
    exact traverseFrom_at hs ha fuel 0 0 e he hpos hfuel

end traversing

/-! ## Traversal after a sequence of calls -/

section claims
variable {α : Type}

theorem succeeded_eq (P : Platform α) (cs : List (Call α)) :
    ∀ s : EntityBag α, succeeded P s cs = (inserted P s cs).length := by
  induction cs with
  | nil => intro s; rfl
  | cons c cs ih =>
    intro s
    cases h : c.apply P s <;> simp [succeeded, inserted, h, ih]

theorem contents_empty : (EntityBag.empty : EntityBag α).contents = [] := rfl

theorem itemsOf_empty (k : TypeId) : itemsOf k (EntityBag.empty : EntityBag α).typeBags = [] :=
  rfl

/-- The objects of type `k` among the contents are the values of the bucket keyed by `k`. -/
theorem filter_contentsOf {m : List (TypeId × TypeBag α)} (hm : Keyed m) (k : TypeId) :
    (contentsOf m).filter (fun o => decide (o.tid = k)) = (itemsOf k m).map (Entity.mk k) := by
  induction m with
  | nil => rfl
  | cons e m ih =>
    have hnd : e.1 ∉ keysOf m ∧ (keysOf m).Nodup := by
      simpa [keysOf] using hm.1
    have hm' : Keyed m := ⟨hnd.2, fun a ha => hm.2 a (List.mem_cons_of_mem _ ha)⟩
    have heT : e.2.T = e.1 := (hm.2 e (List.mem_cons_self _ _)).1
    simp only [contentsOf, List.flatMap_cons, List.filter_append] at ih ⊢
    rw [ih hm']
    by_cases hk : e.1 = k
    · have hnone : findBag k m = none := (findBag_eq_none_iff k m).mpr (hk ▸ hnd.1)
      have h1 : e.2.entities.filter (fun o => decide (o.tid = k)) = e.2.entities := by
        rw [List.filter_eq_self]
        intro o ho
        simp only [TypeBag.entities, List.mem_map] at ho
        obtain ⟨v, _, rfl⟩ := ho
        simp [heT, hk]
      simp [h1, itemsOf, findBag, hk, hnone, TypeBag.entities, heT]
    · have h1 : e.2.entities.filter (fun o => decide (o.tid = k)) = [] := by
        rw [List.filter_eq_nil_iff]
        intro o ho
        simp only [TypeBag.entities, List.mem_map] at ho
        obtain ⟨v, _, rfl⟩ := ho
        simp [heT, hk]
      simp [h1, itemsOf, findBag, hk]

theorem map_mk_state_filter (l : List (Entity α)) (k : TypeId) :
    ((l.filter (fun o => decide (o.tid = k))).map Entity.state).map (Entity.mk k) =
      l.filter (fun o => decide (o.tid = k)) := by
  induction l with
  | nil => rfl
  | cons o l ih =>
    by_cases h : o.tid = k
    · simp only [List.filter_cons, h, decide_True, if_true, List.map_cons, ih]
      congr 1
      cases o; simp_all
    · simp only [List.filter_cons, h, decide_False, if_false, Bool.false_eq_true]
      exact ih

/-- What a run from the empty container gives. -/
theorem run_from_empty (P : Platform α) (cs : List (Call α)) :
    ∃ s, run P EntityBag.empty cs = some s ∧ s.WF ∧
      s.contents.Perm (inserted P EntityBag.empty cs) ∧
      ∀ k, itemsOf k s.typeBags =
        ((inserted P EntityBag.empty cs).filter (fun o => decide (o.tid = k))).map
          Entity.state := by
  obtain ⟨s, h1, h2, h3, h4⟩ := run_spec P cs EntityBag.empty wf_empty
  exact ⟨s, h1, h2, by simpa [contents_empty] using h3, by simpa [itemsOf_empty] using h4⟩

theorem run_wf (P : Platform α) {cs : List (Call α)} {s : EntityBag α}
    (h : run P EntityBag.empty cs = some s) : s.WF := by
  obtain ⟨s', h1, h2, _⟩ := run_from_empty P cs
  rw [h] at h1
  cases h1
  exact h2

end claims

/-- C1. After any sequence of typed and erased emplace calls on an empty container, the run
ends in a container; when its buckets lie inside the address space, a full traversal from
`begin()` to `end()` finishes (any fuel from the number of successful calls on is enough) and
yields exactly as many objects as calls succeeded. -/
theorem traversal_counts_successes {α : Type} (P : Platform α) (calls : List (Call α)) :
    ∃ s, run P EntityBag.empty calls = some s ∧
      (s.InAddressSpace → ∀ fuel, succeeded P EntityBag.empty calls ≤ fuel →
        ∃ objs, traversal s fuel = some objs ∧
          objs.length = succeeded P EntityBag.empty calls) := by
  obtain ⟨s, hrun, hwf, hperm, _⟩ := run_from_empty P calls
  refine ⟨s, hrun, fun ha fuel hfuel => ⟨s.contents, ?_, ?_⟩⟩
  · apply traversal_eq_contents hwf ha
    rw [hperm.length_eq, ← succeeded_eq]; exact hfuel
  · rw [hperm.length_eq, succeeded_eq]

/-- The calls of `main` after a failing erased `emplace` of an unknown type: eight calls succeed,
eight objects are visited. -/
theorem traversal_counts_successes_witness :
    ∃ s, run appendPlatform EntityBag.empty (Call.erased ⟨2, 9⟩ :: mainCalls) = some s ∧
      s.InAddressSpace ∧ succeeded appendPlatform EntityBag.empty
        (Call.erased ⟨2, 9⟩ :: mainCalls) = 8 ∧
      ∃ objs, traversal s 8 = some objs ∧ objs.length = 8 := by
  obtain ⟨s, hrun, h⟩ :=
    traversal_counts_successes appendPlatform (Call.erased ⟨2, 9⟩ :: mainCalls)
  have hs : s = (run appendPlatform EntityBag.empty
      (Call.erased ⟨2, 9⟩ :: mainCalls)).getD EntityBag.empty := by rw [hrun]; rfl
  have ha : s.InAddressSpace := by rw [hs]; decide
  have hn : succeeded appendPlatform EntityBag.empty (Call.erased ⟨2, 9⟩ :: mainCalls) = 8 := by
    decide
  obtain ⟨objs, h1, h2⟩ := h ha 8 (by rw [hn])
  exact ⟨s, hrun, ha, hn, objs, h1, by rw [h2, hn]⟩

/-- C2. After any sequence of emplace calls on an empty container and for every type `T`, the
objects of type `T` met by a full traversal are exactly the objects of type `T` that the
successful calls inserted, in the order of the calls. -/
theorem traversal_keeps_insertion_order {α : Type} (P : Platform α) (calls : List (Call α))
    (T : TypeId) :
    ∃ s, run P EntityBag.empty calls = some s ∧
      (s.InAddressSpace → ∀ fuel, succeeded P EntityBag.empty calls ≤ fuel →
        ∃ objs, traversal s fuel = some objs ∧
          objs.filter (fun o => decide (o.tid = T)) =
            (inserted P EntityBag.empty calls).filter (fun o => decide (o.tid = T))) := by
  obtain ⟨s, hrun, hwf, hperm, hitems⟩ := run_from_empty P calls
  refine ⟨s, hrun, fun ha fuel hfuel => ⟨s.contents, ?_, ?_⟩⟩
  · apply traversal_eq_contents hwf ha
    rw [hperm.length_eq, ← succeeded_eq]; exact hfuel
  · show (contentsOf s.typeBags).filter _ = _
    rw [filter_contentsOf hwf.1 T, hitems T, map_mk_state_filter]

/-- The calls of `main` on a map that puts new keys in front: the `Baz` objects come out in
insertion order. -/
theorem traversal_keeps_insertion_order_witness :
    ∃ s, run frontPlatform EntityBag.empty mainCalls = some s ∧ s.InAddressSpace ∧
      ∃ objs, traversal s 8 = some objs ∧
        objs.filter (fun o => decide (o.tid = 1)) = [⟨1, 1⟩, ⟨1, 2⟩, ⟨1, 3⟩, ⟨1, 4⟩] := by
  obtain ⟨s, hrun, h⟩ := traversal_keeps_insertion_order frontPlatform mainCalls 1
  have hs : s = (run frontPlatform EntityBag.empty mainCalls).getD EntityBag.empty := by
    rw [hrun]; rfl
  have ha : s.InAddressSpace := by rw [hs]; decide
  obtain ⟨objs, h1, h2⟩ := h ha 8 (by decide)
  exact ⟨s, hrun, ha, objs, h1, by rw [h2]; decide⟩

/-- C3. In a container reached by emplace calls from the empty one, the erased `emplace(x)`
ends in the failed assertion exactly when no bucket is keyed by the dynamic type of `x`; when
there is such a bucket the call returns. -/
theorem emplaceBase_fails_iff_no_bucket {α : Type} (P : Platform α) (calls : List (Call α))
    (s : EntityBag α) (hrun : run P EntityBag.empty calls = some s) (x : Entity α) :
    ((∃ t, s.emplaceBase P x = Outcome.assertFailed t) ↔ findBag x.tid s.typeBags = none) ∧
    (findBag x.tid s.typeBags ≠ none → ∃ s', s.emplaceBase P x = Outcome.done s') := by
  have hwf := run_wf P hrun
  have hsucc : findBag x.tid s.typeBags ≠ none → ∃ s', s.emplaceBase P x = Outcome.done s' := by
    intro hne
    cases hb : findBag x.tid s.typeBags with
    | none => exact absurd hb hne
    | some b =>
      obtain ⟨s', h1, _⟩ := emplace_inserts P hwf x.tid x.state
      exact ⟨s', by rw [emplaceBase_eq_emplace P s x hb]; exact h1⟩
  refine ⟨⟨?_, fun h => ⟨s, emplaceBase_missing P s x h⟩⟩, hsucc⟩
  rintro ⟨t, ht⟩
  by_contra hne
  obtain ⟨s', hs'⟩ := hsucc hne
  rw [hs'] at ht
  cases ht

/-- After the calls of `main` there is a bucket for type `1` and none for type `2`. -/
theorem emplaceBase_fails_iff_no_bucket_witness :
    ∃ s, run appendPlatform EntityBag.empty mainCalls = some s ∧
      (((∃ t, s.emplaceBase appendPlatform ⟨2, 9⟩ = Outcome.assertFailed t) ↔
          findBag (2 : TypeId) s.typeBags = none) ∧
        (findBag (2 : TypeId) s.typeBags ≠ none →
          ∃ s', s.emplaceBase appendPlatform ⟨2, 9⟩ = Outcome.done s')) ∧
      findBag (2 : TypeId) s.typeBags = none ∧ findBag (1 : TypeId) s.typeBags ≠ none :=
  ⟨_, rfl, emplaceBase_fails_iff_no_bucket appendPlatform mainCalls _ rfl ⟨2, 9⟩,
    by decide, by decide⟩

/-- C4. After any sequence of emplace calls on an empty container, a bucket keyed by `T` exists
exactly when a successful call inserted an object of type `T`, and the number of buckets is the
number of distinct types among the inserted objects. -/
theorem buckets_are_inserted_types {α : Type} (P : Platform α) (calls : List (Call α)) :
    ∃ s, run P EntityBag.empty calls = some s ∧
      (∀ T, findBag T s.typeBags ≠ none ↔ ∃ o ∈ inserted P EntityBag.empty calls, o.tid = T) ∧
      s.typeBags.length = ((inserted P EntityBag.empty calls).map Entity.tid).dedup.length := by
  obtain ⟨s, hrun, hwf, _, hitems⟩ := run_from_empty P calls
  have hiff : ∀ T, findBag T s.typeBags ≠ none ↔
      ∃ o ∈ inserted P EntityBag.empty calls, o.tid = T := by
    intro T
    have hT := hitems T
    constructor
    · intro hne
      cases hb : findBag T s.typeBags with
      | none => exact absurd hb hne
      | some b =>
        have hfill := (hwf.2 _ (findBag_mem hb)).2
        simp only [itemsOf, hb] at hT
        rw [hT] at hfill
        have hne' : (inserted P EntityBag.empty calls).filter (fun o => decide (o.tid = T)) ≠ [] :=
          fun h => hfill (by rw [h]; rfl)
        obtain ⟨o, ho⟩ := List.exists_mem_of_ne_nil _ hne'
        rw [List.mem_filter] at ho
        exact ⟨o, ho.1, by simpa using ho.2⟩
    · rintro ⟨o, ho, hoT⟩ hnone
      simp only [itemsOf, hnone] at hT
      have hmem : o ∈ (inserted P EntityBag.empty calls).filter (fun o => decide (o.tid = T)) :=
        List.mem_filter.mpr ⟨ho, by simpa using hoT⟩
      have := congrArg List.length hT
      simp only [List.length_nil, List.length_map] at this
      have hpos := List.length_pos_of_mem hmem
      omega
  refine ⟨s, hrun, hiff, ?_⟩
  have hperm : (keysOf s.typeBags).Perm
      ((inserted P EntityBag.empty calls).map Entity.tid).dedup := by
    rw [List.perm_ext_iff_of_nodup hwf.1.1 (List.nodup_dedup _)]
    intro T
    rw [List.mem_dedup, List.mem_map]
    have h1 : T ∈ keysOf s.typeBags ↔ findBag T s.typeBags ≠ none := by
      rw [Ne, findBag_eq_none_iff, not_not]
    rw [h1, hiff T]
  have := hperm.length_eq
  simpa [keysOf] using this

/-- After the calls of `main` there are exactly the two buckets of `Bar` and `Baz`. -/
theorem buckets_are_inserted_types_witness :
    ∃ s, run frontPlatform EntityBag.empty mainCalls = some s ∧
      findBag (0 : TypeId) s.typeBags ≠ none ∧ findBag (1 : TypeId) s.typeBags ≠ none ∧
      findBag (2 : TypeId) s.typeBags = none ∧ s.typeBags.length = 2 := by
  obtain ⟨s, hrun, _, hlen⟩ := buckets_are_inserted_types frontPlatform mainCalls
  have hs : s = (run frontPlatform EntityBag.empty mainCalls).getD EntityBag.empty := by
    rw [hrun]; rfl
  refine ⟨s, hrun, ?_, ?_, ?_, ?_⟩
  · rw [hs]; decide
  · rw [hs]; decide
  · rw [hs]; decide
  · rw [hlen]; decide

/-- C5. In a container reached by emplace calls that holds a bucket for the dynamic type of
`x`, the erased `emplace(x)` ends exactly as the typed `emplace` of that type constructing the
state of `x`: both return the same container, in which `x` is the last value of the bucket of
its type, also when read through `entity(size() - 1)`. -/
theorem emplaceBase_same_as_emplace {α : Type} (P : Platform α) (calls : List (Call α))
    (s : EntityBag α) (hrun : run P EntityBag.empty calls = some s) (x : Entity α)
    (hb : findBag x.tid s.typeBags ≠ none) :
    s.emplaceBase P x = s.emplace P x.tid x.state ∧
    ∃ s' b', s.emplaceBase P x = Outcome.done s' ∧ findBag x.tid s'.typeBags = some b' ∧
      b'.elems.items = itemsOf x.tid s.typeBags ++ [x.state] ∧
      (b'.InAddressSpace → b'.load (b'.entity (b'.size - 1)) = some x) := by
  have hwf := run_wf P hrun
  cases hf : findBag x.tid s.typeBags with
  | none => exact absurd hf hb
  | some b =>
    have heq := emplaceBase_eq_emplace P s x hf
    have hbT : b.T = x.tid := (hwf.1.2 _ (findBag_mem hf)).1
    have hstr : b.Strided := (hwf.1.2 _ (findBag_mem hf)).2
    refine ⟨heq, ⟨setBag x.tid (b.emplace P x.state) s.typeBags⟩, b.emplace P x.state,
      ?_, findBag_setBag_self _ hf, ?_, ?_⟩
    · simp [EntityBag.emplaceBase, hf, TypeBag.emplaceBase, hbT]
    · simp [itemsOf, hf, TypeBag.items_emplace]
    · intro ha
      have hsy := TypeBag.synced_emplace P b x.state hstr
      have hsize : (b.emplace P x.state).size = b.elems.items.length + 1 := by
        rw [TypeBag.size, hsy.2.2, StdVector.size, TypeBag.items_emplace]; simp
      have hi : b.elems.items.length < (b.emplace P x.state).elems.items.length := by
        rw [TypeBag.items_emplace]; simp
      rw [hsize, Nat.add_sub_cancel, TypeBag.load_entity _ hsy ha _ hi]
      cases x
      simp_all [TypeBag.items_emplace, TypeBag.T_emplace]

/-- An erased `emplace` of a `1` with state `7` into a container holding one `1`. -/
theorem emplaceBase_same_as_emplace_witness :
    ∃ s, run appendPlatform EntityBag.empty [Call.typed 1 5] = some s ∧
      findBag (1 : TypeId) s.typeBags ≠ none ∧
      s.emplaceBase appendPlatform ⟨1, 7⟩ = s.emplace appendPlatform 1 7 ∧
      ∃ s' b', s.emplaceBase appendPlatform ⟨1, 7⟩ = Outcome.done s' ∧
        findBag (1 : TypeId) s'.typeBags = some b' ∧ b'.elems.items = [5, 7] ∧
        b'.InAddressSpace ∧ b'.load (b'.entity (b'.size - 1)) = some ⟨1, 7⟩ := by
  obtain ⟨heq, s', b', h1, h2, h3, h4⟩ := emplaceBase_same_as_emplace appendPlatform
    [Call.typed 1 5]
    ((run appendPlatform EntityBag.empty [Call.typed 1 5]).getD EntityBag.empty) rfl ⟨1, 7⟩
    (by decide)
  have hd : ((run appendPlatform EntityBag.empty [Call.typed 1 5]).getD
      EntityBag.empty).emplaceBase appendPlatform ⟨1, 7⟩ =
        Outcome.done ⟨[(1, TypeBag.mk 1 8320 2 16 (StdVector.mk 16 8320 [5, 7]))]⟩ := by
    decide
  rw [hd] at h1
  cases h1
  simp only [findBag, if_true, Option.some.injEq] at h2
  subst h2
  exact ⟨_, rfl, by decide, heq, _, _, hd, rfl, h3, by decide, h4 (by decide)⟩

/-- C7. An erased `emplace(x)` whose dynamic type has no bucket ends in the failed assertion
with the container as it was: still no bucket for that type, every bucket with the values it
had, and any later traversal as before. -/
theorem emplaceBase_failure_changes_nothing {α : Type} (P : Platform α) (s : EntityBag α)
    (x : Entity α) (h : findBag x.tid s.typeBags = none) :
    ∃ t, s.emplaceBase P x = Outcome.assertFailed t ∧ t = s ∧
      findBag x.tid t.typeBags = none ∧ (∀ k, itemsOf k t.typeBags = itemsOf k s.typeBags) ∧
      ∀ fuel, traversal t fuel = traversal s fuel :=
  ⟨s, emplaceBase_missing P s x h, rfl, h, fun _ => rfl, fun _ => rfl⟩

/-- An erased `emplace` of a `2` into a container that only has a bucket for `1`. -/
theorem emplaceBase_failure_changes_nothing_witness :
    ∃ t, (⟨[(1, (TypeBag.new appendPlatform 1).emplace appendPlatform 5)]⟩ :
        EntityBag Nat).emplaceBase appendPlatform ⟨2, 9⟩ = Outcome.assertFailed t ∧
      t = ⟨[(1, (TypeBag.new appendPlatform 1).emplace appendPlatform 5)]⟩ ∧
      findBag (2 : TypeId) t.typeBags = none ∧
      (∀ k, itemsOf k t.typeBags =
        itemsOf k [(1, (TypeBag.new appendPlatform 1).emplace appendPlatform 5)]) ∧
      ∀ fuel, traversal t fuel =
        traversal ⟨[(1, (TypeBag.new appendPlatform 1).emplace appendPlatform 5)]⟩ fuel :=
  emplaceBase_failure_changes_nothing appendPlatform
    ⟨[(1, (TypeBag.new appendPlatform 1).emplace appendPlatform 5)]⟩ ⟨2, 9⟩ (by decide)

/-- C9. In a container reached by typed and erased emplace calls from the empty one, the bag
stored under key `T` is a `TypeBag<T>` and every object in it, listed or read through
`entity(i)`, has dynamic type `T`. -/
theorem bucket_holds_its_key_type {α : Type} (P : Platform α) (calls : List (Call α))
    (s : EntityBag α) (hrun : run P EntityBag.empty calls = some s) :
    ∀ e ∈ s.typeBags, e.2.T = e.1 ∧ (∀ o ∈ e.2.entities, o.tid = e.1) ∧
      ∀ i o, e.2.load (e.2.entity i) = some o → o.tid = e.1 := by
  have hwf := run_wf P hrun
  intro e he
  have hT : e.2.T = e.1 := (hwf.1.2 e he).1
  refine ⟨hT, ?_, ?_⟩
  · intro o ho
    simp only [TypeBag.entities, List.mem_map] at ho
    obtain ⟨v, _, rfl⟩ := ho
    exact hT
  · intro i o ho
    simp only [TypeBag.load, Option.map_eq_some'] at ho
    obtain ⟨v, _, rfl⟩ := ho
    exact hT

/-- The container after the calls of `main`. -/
theorem bucket_holds_its_key_type_witness :
    ∃ s, run frontPlatform EntityBag.empty mainCalls = some s ∧ s.typeBags ≠ [] ∧
      ∀ e ∈ s.typeBags, e.2.T = e.1 ∧ (∀ o ∈ e.2.entities, o.tid = e.1) ∧
        ∀ i o, e.2.load (e.2.entity i) = some o → o.tid = e.1 :=
  ⟨_, rfl, by decide, bucket_holds_its_key_type frontPlatform mainCalls _ rfl⟩

/-! ## The order of the buckets -/

section order
variable {α : Type}

/-- When the keys of a registry are ordered by a relation, its contents are ordered by it from
one bucket to the next. -/
theorem pairwise_contentsOf {m : List (TypeId × TypeBag α)} (hm : Keyed m)
    {R : TypeId → TypeId → Prop} (hR : (keysOf m).Pairwise R) :
    (contentsOf m).Pairwise (fun a b => a.tid = b.tid ∨ R a.tid b.tid) := by
  induction m with
  | nil => simp [contentsOf]
  | cons e m ih =>
    have hnd : e.1 ∉ keysOf m ∧ (keysOf m).Nodup := by simpa [keysOf] using hm.1
    have hm' : Keyed m := ⟨hnd.2, fun a ha => hm.2 a (List.mem_cons_of_mem _ ha)⟩
    have heT : e.2.T = e.1 := (hm.2 e (List.mem_cons_self _ _)).1
    simp only [keysOf, List.map_cons, List.pairwise_cons] at hR
    have hA : ∀ a ∈ e.2.entities, a.tid = e.1 := by
      intro a ha
      simp only [TypeBag.entities, List.mem_map] at ha
      obtain ⟨v, _, rfl⟩ := ha
      exact heT
    have hB : ∀ b ∈ contentsOf m, b.tid ∈ keysOf m := by
      intro b hb
      simp only [contentsOf, List.mem_flatMap, TypeBag.entities, List.mem_map] at hb
      obtain ⟨e', he', v, _, rfl⟩ := hb
      have : e'.2.T = e'.1 := (hm'.2 e' he').1
      simp only [this]
      exact List.mem_map_of_mem Prod.fst he'
    show (e.2.entities ++ contentsOf m).Pairwise _
    rw [List.pairwise_append]
    refine ⟨?_, ih hm' hR.2, ?_⟩
    · rw [List.pairwise_iff_getElem]
      intro i j hi hj _
      exact Or.inl ((hA _ (List.getElem_mem hi)).trans (hA _ (List.getElem_mem hj)).symm)
    · intro a ha b hb
      refine Or.inr ?_
      rw [hA a ha]
      exact hR.1 _ (hB b hb)

theorem pairwise_indexOf_self {l : List TypeId} (hl : l.Nodup) :
    l.Pairwise (fun a b => l.indexOf a < l.indexOf b) := by
  rw [List.pairwise_iff_getElem]
  intro i j hi hj hij
  rw [List.indexOf_getElem hl i hi, List.indexOf_getElem hl j hj]
  exact hij

/-- The contents of a registry with unique, matching keys are grouped by type. -/
theorem grouped_contentsOf {m : List (TypeId × TypeBag α)} (hm : Keyed m) :
    Grouped (contentsOf m) := by
  have hp := pairwise_contentsOf hm (pairwise_indexOf_self hm.1)
  rw [List.pairwise_iff_getElem] at hp
  intro i j k a b c hij hjk ha hb hc hac
  obtain ⟨hi, rfl⟩ := List.getElem?_eq_some.mp ha
  obtain ⟨hj, rfl⟩ := List.getElem?_eq_some.mp hb
  obtain ⟨hk, rfl⟩ := List.getElem?_eq_some.mp hc
  have h1 := hp i j hi hj hij
  have h2 := hp j k hj hk hjk
  rcases h1 with h1 | h1
  · exact h1.symm
  · rcases h2 with h2 | h2
    · rw [h2, ← hac] at h1
      exact absurd h1 (Nat.lt_irrefl _)
    · rw [← hac] at h2
      exact absurd (Nat.lt_trans h1 h2) (Nat.lt_irrefl _)

end order

/-- C6. After any sequence of emplace calls on an empty container, a full traversal is grouped
by bucket: whenever positions `i < j < k` hold objects and those at `i` and `k` have the same
type, the object at `j` has that type too. -/
theorem traversal_is_grouped {α : Type} (P : Platform α) (calls : List (Call α)) :
    ∃ s, run P EntityBag.empty calls = some s ∧
      (s.InAddressSpace → ∀ fuel, succeeded P EntityBag.empty calls ≤ fuel →
        ∃ objs, traversal s fuel = some objs ∧ Grouped objs) := by
  obtain ⟨s, hrun, hwf, hperm, _⟩ := run_from_empty P calls
  refine ⟨s, hrun, fun ha fuel hfuel => ⟨s.contents, ?_, grouped_contentsOf hwf.1⟩⟩
  apply traversal_eq_contents hwf ha
  rw [hperm.length_eq, ← succeeded_eq]; exact hfuel

/-- The calls of `main`, which interleave `Bar` and `Baz`, on a map that puts new keys in front.
-/
theorem traversal_is_grouped_witness :
    ∃ s, run frontPlatform EntityBag.empty mainCalls = some s ∧ s.InAddressSpace ∧
      ∃ objs, traversal s 8 = some objs ∧ objs.length = 8 ∧ Grouped objs := by
  obtain ⟨s, hrun, h⟩ := traversal_is_grouped frontPlatform mainCalls
  have hs : s = (run frontPlatform EntityBag.empty mainCalls).getD EntityBag.empty := by
    rw [hrun]; rfl
  have ha : s.InAddressSpace := by rw [hs]; decide
  obtain ⟨objs, h1, h2⟩ := h ha 8 (by decide)
  have h3 : traversal s 8 = some [⟨1, 1⟩, ⟨1, 2⟩, ⟨1, 3⟩, ⟨1, 4⟩, ⟨0, 12⟩, ⟨0, 24⟩, ⟨0, 35⟩,
      ⟨0, 46⟩] := by rw [hs]; decide
  have h4 : objs.length = 8 := by
    rw [h1] at h3
    cases h3
    rfl
  exact ⟨s, hrun, ha, objs, h1, h4, h2⟩

section firstSeen
variable {α : Type}

/-- The keys after a typed `emplace` that returned: those of the registry it worked on. -/
theorem keysOf_emplace (P : Platform α) {s s' : EntityBag α} {T : TypeId} {v : α}
    (h : s.emplace P T v = Outcome.done s') :
    keysOf s'.typeBags = keysOf (match findBag T s.typeBags with
      | some _ => s.typeBags
      | none => P.arrange (s.typeBags ++ [(T, TypeBag.new P T)])) := by
  simp only [EntityBag.emplace] at h
  generalize (match findBag T s.typeBags with
      | some _ => s.typeBags
      | none => P.arrange (s.typeBags ++ [(T, TypeBag.new P T)])) = m at h ⊢
  cases hf : findBag T m with
  | none => simp [hf] at h
  | some b =>
    simp only [hf] at h
    by_cases hb : b.T = T
    · simp only [hb, if_true, Outcome.done.injEq] at h
      rw [← h]
      exact keysOf_setBag _ _ _
    · simp [hb] at h

/-- With a map that iterates in insertion order, a call that returned left the keys as they
were or added the new type at the end. -/
theorem keysOf_apply_of_insertion_order (P : Platform α) (hP : ∀ l, P.arrange l = l)
    {s s' : EntityBag α} {c : Call α} (h : c.apply P s = Outcome.done s') :
    keysOf s'.typeBags =
      if c.entity.tid ∈ keysOf s.typeBags then keysOf s.typeBags
      else keysOf s.typeBags ++ [c.entity.tid] := by
  have key : ∀ (T : TypeId) (v : α), s.emplace P T v = Outcome.done s' →
      keysOf s'.typeBags =
        if T ∈ keysOf s.typeBags then keysOf s.typeBags else keysOf s.typeBags ++ [T] := by
    intro T v hT
    rw [keysOf_emplace P hT]
    cases hf : findBag T s.typeBags with
    | none =>
      have : T ∉ List.map Prod.fst s.typeBags := (findBag_eq_none_iff T _).mp hf
      simp [this, hP, keysOf]
    | some b =>
      have : T ∈ keysOf s.typeBags := by
        by_contra hn
        rw [(findBag_eq_none_iff T _).mpr hn] at hf
        cases hf
      simp [this]
  cases c with
  | typed T v => exact key T v h
  | erased x =>
    simp only [Call.apply] at h
    cases hf : findBag x.tid s.typeBags with
    | none => rw [emplaceBase_missing P s x hf] at h; cases h
    | some b =>
      rw [emplaceBase_eq_emplace P s x hf] at h
      exact key x.tid x.state h

/-- With a map that iterates in insertion order, the keys stay sorted by the first appearance
of their type among the inserted objects. -/
theorem run_keys_sorted (P : Platform α) (hP : ∀ l, P.arrange l = l) (cs : List (Call α)) :
    ∀ (s : EntityBag α) (h0 : List TypeId), s.WF →
      (keysOf s.typeBags).Pairwise (fun a b => h0.indexOf a < h0.indexOf b) →
      (∀ k, k ∈ keysOf s.typeBags ↔ k ∈ h0) →
      ∃ s', run P s cs = some s' ∧
        (keysOf s'.typeBags).Pairwise (fun a b =>
          (h0 ++ (inserted P s cs).map Entity.tid).indexOf a <
            (h0 ++ (inserted P s cs).map Entity.tid).indexOf b) := by
  induction cs with
  | nil =>
    intro s h0 _ hp _
    exact ⟨s, rfl, by simpa [inserted] using hp⟩
  | cons c cs ih =>
    intro s h0 hs hp hmem
    rcases apply_cases P hs c with ⟨_, hfail⟩ | ⟨s1, hdone, hins⟩
    · obtain ⟨s', h1, h2⟩ := ih s h0 hs hp hmem
      exact ⟨s', by simp [run, hfail, h1], by simpa [inserted, hfail] using h2⟩
    · have hkeys := keysOf_apply_of_insertion_order P hP hdone
      have hold : ∀ a ∈ keysOf s.typeBags,
          (h0 ++ [c.entity.tid]).indexOf a = h0.indexOf a := fun a ha =>
        List.indexOf_append_of_mem ((hmem a).mp ha)
      have hp1 : (keysOf s.typeBags).Pairwise (fun a b =>
          (h0 ++ [c.entity.tid]).indexOf a < (h0 ++ [c.entity.tid]).indexOf b) := by
        refine List.Pairwise.imp_of_mem ?_ hp
        intro a b ha hb hab
        rw [hold a ha, hold b hb]; exact hab
      have hp' : (keysOf s1.typeBags).Pairwise (fun a b =>
          (h0 ++ [c.entity.tid]).indexOf a < (h0 ++ [c.entity.tid]).indexOf b) := by
        rw [hkeys]
        by_cases ht : c.entity.tid ∈ keysOf s.typeBags
        · simpa [ht] using hp1
        · simp only [ht, if_false]
          rw [List.pairwise_append]
          refine ⟨hp1, List.pairwise_singleton _ _, ?_⟩
          intro a ha b hb
          rw [List.mem_singleton] at hb
          subst hb
          have hnot : c.entity.tid ∉ h0 := fun hh => ht ((hmem _).mpr hh)
          rw [hold a ha, List.indexOf_append_of_not_mem hnot]
          have : h0.indexOf a < h0.length := List.indexOf_lt_length.mpr ((hmem a).mp ha)
          omega
      have hmem' : ∀ k, k ∈ keysOf s1.typeBags ↔ k ∈ h0 ++ [c.entity.tid] := by
        intro k
        rw [hkeys]
        by_cases ht : c.entity.tid ∈ keysOf s.typeBags
        · simp only [ht, if_true, List.mem_append, List.mem_singleton, hmem k]
          constructor
          · exact Or.inl
          · rintro (h | h)
            · exact h
            · rw [h]; exact (hmem _).mp ht
        · simp [ht, hmem k]
      obtain ⟨s', h1, h2⟩ := ih s1 (h0 ++ [c.entity.tid]) hins.wf hp' hmem'
      refine ⟨s', by simp [run, hdone, h1], ?_⟩
      simpa [inserted, hdone] using h2

/-- Contents ordered by first appearance run through the types first seen first. -/
theorem firstSeenFirst_of_pairwise {hist objs : List (Entity α)}
    (hp : objs.Pairwise (fun a b => a.tid = b.tid ∨
      (hist.map Entity.tid).indexOf a.tid < (hist.map Entity.tid).indexOf b.tid)) :
    FirstSeenFirst hist objs := by
  rw [List.pairwise_iff_getElem] at hp
  intro A B hAB i j a b ha hb haA hbB
  obtain ⟨hi, rfl⟩ := List.getElem?_eq_some.mp ha
  obtain ⟨hj, rfl⟩ := List.getElem?_eq_some.mp hb
  by_contra hij
  rcases Nat.lt_or_eq_of_le (Nat.le_of_not_lt hij) with hlt | heq
  · rcases hp j i hj hi hlt with h | h
    · rw [hbB, haA] at h
      rw [h] at hAB
      exact absurd hAB (Nat.lt_irrefl _)
    · rw [hbB, haA] at h
      exact absurd (Nat.lt_trans hAB h) (Nat.lt_irrefl _)
  · subst heq
    rw [haA] at hbB
    rw [hbB] at hAB
    exact absurd hAB (Nat.lt_irrefl _)

end firstSeen

/-- C8, as the claim states it, fails on a map that puts a new key in front: after
`emplace<A>` and then `emplace<B>` the traversal yields the `B` before the `A`. -/
theorem first_seen_order_refuted :
    ∃ s objs, run frontPlatform EntityBag.empty [Call.typed 0 10, Call.typed 1 20] = some s ∧
      s.InAddressSpace ∧ traversal s 2 = some objs ∧
      ¬ FirstSeenFirst
        (inserted frontPlatform EntityBag.empty [Call.typed 0 10, Call.typed 1 20]) objs :=
  ⟨_, [⟨1, 20⟩, ⟨0, 10⟩], rfl, by decide, by decide,
    fun h => absurd (h 0 1 (by decide) 1 0 ⟨0, 10⟩ ⟨1, 20⟩ rfl rfl rfl rfl) (by decide)⟩

/-- C8, amended. The buckets are visited in the iteration order of the registry. When the map
iterates its keys in insertion order (a new key goes last, nothing is reordered), this is
first-seen-type-first: after any sequence of emplace calls on an empty container, if the first
object of type `A` was inserted before the first of type `B`, the traversal yields every object
of type `A` before every object of type `B`. -/
theorem first_seen_order_of_insertion_ordered_map {α : Type} (P : Platform α)
    (hP : ∀ l, P.arrange l = l) (calls : List (Call α)) :
    ∃ s, run P EntityBag.empty calls = some s ∧
      (s.InAddressSpace → ∀ fuel, succeeded P EntityBag.empty calls ≤ fuel →
        ∃ objs, traversal s fuel = some objs ∧
          FirstSeenFirst (inserted P EntityBag.empty calls) objs) := by
  obtain ⟨s, hrun, hwf, hperm, _⟩ := run_from_empty P calls
  obtain ⟨s', hrun', hsorted⟩ := run_keys_sorted P hP calls EntityBag.empty [] wf_empty
    (by simp [EntityBag.empty, keysOf]) (by simp [EntityBag.empty, keysOf])
  rw [hrun] at hrun'
  cases hrun'
  refine ⟨s, hrun, fun ha fuel hfuel => ⟨s.contents, ?_, ?_⟩⟩
  · apply traversal_eq_contents hwf ha
    rw [hperm.length_eq, ← succeeded_eq]; exact hfuel
  · apply firstSeenFirst_of_pairwise
    have := pairwise_contentsOf hwf.1 hsorted
    simpa using this

/-- The calls of `main` on a map that iterates in insertion order. -/
theorem first_seen_order_of_insertion_ordered_map_witness :
    ∃ s, run appendPlatform EntityBag.empty mainCalls = some s ∧ s.InAddressSpace ∧
      ∃ objs, traversal s 8 = some objs ∧
        FirstSeenFirst (inserted appendPlatform EntityBag.empty mainCalls) objs := by
  obtain ⟨s, hrun, h⟩ :=
    first_seen_order_of_insertion_ordered_map appendPlatform (fun _ => rfl) mainCalls
  have hs : s = (run appendPlatform EntityBag.empty mainCalls).getD EntityBag.empty := by
    rw [hrun]; rfl
  have ha : s.InAddressSpace := by rw [hs]; decide
  obtain ⟨objs, h1, h2⟩ := h ha 8 (by decide)
  exact ⟨s, hrun, ha, objs, h1, h2⟩

/-! ## One successful call, bucket by bucket -/

section frame
variable {α : Type}

/-- The typed `emplace<T>` on a well-formed container: the bag of `T` (a fresh one when there
was none) received the new value, every other key finds the bag it found before. -/
theorem emplace_bags (P : Platform α) {s : EntityBag α} (hs : s.WF) (T : TypeId) (v : α) :
    ∃ s', s.emplace P T v = Outcome.done s' ∧
      findBag T s'.typeBags =
        some (((findBag T s.typeBags).getD (TypeBag.new P T)).emplace P v) ∧
      ∀ k, k ≠ T → findBag k s'.typeBags = findBag k s.typeBags := by
  cases hT : findBag T s.typeBags with
  | some b =>
    have hbT : b.T = T := (hs.1.2 _ (findBag_mem hT)).1
    refine ⟨⟨setBag T (b.emplace P v) s.typeBags⟩, ?_, ?_, ?_⟩
    · simp [EntityBag.emplace, hT, hbT]
    · simpa using findBag_setBag_self (b.emplace P v) hT
    · intro k hk; exact findBag_setBag_other _ _ hk
  | none =>
    obtain ⟨_, _, hfind, _, hother⟩ := arrange_new P hs.1 hs.2 hT
    refine ⟨⟨setBag T ((TypeBag.new P T).emplace P v)
      (P.arrange (s.typeBags ++ [(T, TypeBag.new P T)]))⟩, ?_, ?_, ?_⟩
    · have hnT : (TypeBag.new P T).T = T := rfl
      simp [EntityBag.emplace, hT, hfind, hnT]
    · simpa using findBag_setBag_self ((TypeBag.new P T).emplace P v) hfind
    · intro k hk
      rw [findBag_setBag_other _ _ hk]
      exact hother k hk

/-- A call that returned did what the typed `emplace` of the object's type does. -/
theorem apply_done_eq_emplace (P : Platform α) {s s' : EntityBag α} {c : Call α}
    (h : c.apply P s = Outcome.done s') :
    s.emplace P c.entity.tid c.entity.state = Outcome.done s' := by
  cases c with
  | typed T v => exact h
  | erased x =>
    simp only [Call.apply] at h
    cases hf : findBag x.tid s.typeBags with
    | none => rw [emplaceBase_missing P s x hf] at h; cases h
    | some b => rw [emplaceBase_eq_emplace P s x hf] at h; exact h

end frame

/-- C11. In a container reached by emplace calls, a call (typed or erased) that returned after
inserting an object of type `T` changed only the bucket of `T`: every other key finds the very
bag it found before (same `size()`, same elements at the same indices, no bucket added or
removed), and the bucket of `T` holds its previous values at their previous indices followed by
exactly one new value, the inserted object, also when read through `entity(i)`. -/
theorem successful_emplace_changes_one_bucket {α : Type} (P : Platform α)
    (calls : List (Call α)) (s : EntityBag α) (hrun : run P EntityBag.empty calls = some s)
    (c : Call α) (s' : EntityBag α) (hdone : c.apply P s = Outcome.done s') :
    (∀ k, k ≠ c.entity.tid → findBag k s'.typeBags = findBag k s.typeBags) ∧
    ∃ b', findBag c.entity.tid s'.typeBags = some b' ∧
      b'.size = (itemsOf c.entity.tid s.typeBags).length + 1 ∧
      b'.elems.items = itemsOf c.entity.tid s.typeBags ++ [c.entity.state] ∧
      (b'.InAddressSpace →
        (∀ (i : Nat) (hi : i < (itemsOf c.entity.tid s.typeBags).length),
          b'.load (b'.entity i) =
            some ⟨c.entity.tid, (itemsOf c.entity.tid s.typeBags)[i]⟩) ∧
        b'.load (b'.entity (itemsOf c.entity.tid s.typeBags).length) = some c.entity) := by
  have hwf := run_wf P hrun
  obtain ⟨s1, h1, hfind, hother⟩ := emplace_bags P hwf c.entity.tid c.entity.state
  have hs1 : s1 = s' := by
    have := apply_done_eq_emplace P hdone
    rw [h1] at this
    cases this
    rfl
  subst hs1
  refine ⟨hother, _, hfind, ?_⟩
  have hb0 : ((findBag c.entity.tid s.typeBags).getD (TypeBag.new P c.entity.tid)).Strided ∧
      ((findBag c.entity.tid s.typeBags).getD (TypeBag.new P c.entity.tid)).T = c.entity.tid ∧
      ((findBag c.entity.tid s.typeBags).getD (TypeBag.new P c.entity.tid)).elems.items =
        itemsOf c.entity.tid s.typeBags := by
    cases hf : findBag c.entity.tid s.typeBags with
    | none => exact ⟨TypeBag.strided_new P _, rfl, by simp [itemsOf, hf, TypeBag.new]⟩
    | some b =>
      have hb := hwf.1.2 _ (findBag_mem hf)
      exact ⟨hb.2, hb.1, by simp [itemsOf, hf]⟩
  generalize (findBag c.entity.tid s.typeBags).getD (TypeBag.new P c.entity.tid) = b0 at hb0
  obtain ⟨hstr, hT, hitems⟩ := hb0
  have hsy := TypeBag.synced_emplace P b0 c.entity.state hstr
  have hit : (b0.emplace P c.entity.state).elems.items =
      itemsOf c.entity.tid s.typeBags ++ [c.entity.state] := by
    rw [TypeBag.items_emplace, hitems]
  refine ⟨?_, hit, ?_⟩
  · rw [TypeBag.size, hsy.2.2, StdVector.size, hit]; simp
  · intro ha
    constructor
    · intro i hi
      have hi' : i < (b0.emplace P c.entity.state).elems.items.length := by
        rw [hit]; simp; omega
      rw [TypeBag.load_entity _ hsy ha i hi']
      simp only [TypeBag.T_emplace, hT, hit]
      rw [List.getElem_append_left hi]
    · have hi' : (itemsOf c.entity.tid s.typeBags).length <
          (b0.emplace P c.entity.state).elems.items.length := by
        rw [hit]; simp
      rw [TypeBag.load_entity _ hsy ha _ hi']
      simp only [TypeBag.T_emplace, hT, hit]
      rw [List.getElem_append_right (Nat.le_refl _)]
      simp

/-- Two typed calls, then an erased `emplace` of a `1`: the bucket of `0` is untouched, the
bucket of `1` holds its old value and the new one. -/
theorem successful_emplace_changes_one_bucket_witness :
    ∃ s s', run appendPlatform EntityBag.empty [Call.typed 0 12, Call.typed 1 1] = some s ∧
      (Call.erased ⟨1, 4⟩).apply appendPlatform s = Outcome.done s' ∧
      findBag (0 : TypeId) s'.typeBags = findBag (0 : TypeId) s.typeBags ∧
      findBag (0 : TypeId) s.typeBags ≠ none ∧
      ∃ b', findBag (1 : TypeId) s'.typeBags = some b' ∧ b'.size = 2 ∧
        b'.elems.items = [1, 4] ∧ b'.InAddressSpace ∧
        b'.load (b'.entity 0) = some ⟨1, 1⟩ ∧ b'.load (b'.entity 1) = some ⟨1, 4⟩ := by
  obtain ⟨hother, b', hf, hsz, hit, hld⟩ := successful_emplace_changes_one_bucket
    appendPlatform [Call.typed 0 12, Call.typed 1 1]
    ((run appendPlatform EntityBag.empty [Call.typed 0 12, Call.typed 1 1]).getD
      EntityBag.empty) rfl (Call.erased ⟨1, 4⟩)
    ((((Call.erased ⟨1, 4⟩).apply appendPlatform
      ((run appendPlatform EntityBag.empty [Call.typed 0 12, Call.typed 1 1]).getD
        EntityBag.empty)).result).getD EntityBag.empty) (by decide)
  have hb : findBag (1 : TypeId) ((((Call.erased ⟨1, 4⟩).apply appendPlatform
      ((run appendPlatform EntityBag.empty [Call.typed 0 12, Call.typed 1 1]).getD
        EntityBag.empty)).result).getD EntityBag.empty).typeBags =
      some (TypeBag.mk 1 8320 2 16 (StdVector.mk 16 8320 [1, 4])) := by decide
  have hb' : b' = TypeBag.mk 1 8320 2 16 (StdVector.mk 16 8320 [1, 4]) := by
    have h := hf.symm.trans hb
    cases h
    rfl
  subst hb'
  have ha : (TypeBag.mk 1 8320 2 16 (StdVector.mk 16 8320 [1, 4]) : TypeBag Nat).InAddressSpace :=
    by decide
  exact ⟨_, _, rfl, by decide, hother 0 (by decide), by decide, _, hf, hsz, hit, ha,
    (hld ha).1 0 (by decide), (hld ha).2⟩

/-! ## Counting the steps of the iterator -/

section stepping
variable {α : Type}

theorem total_eq_length_contents {s : EntityBag α} (hs : s.WF) :
    s.total = s.contents.length := by
  have h : ∀ m : List (TypeId × TypeBag α), (∀ e ∈ m, e.2.Filled) →
      (m.map (fun e => e.2.size)).sum = (contentsOf m).length := by
    intro m
    induction m with
    | nil => intro _; rfl
    | cons e m ih =>
      intro hm
      have he : e.2.size = e.2.elems.items.length := (hm e (List.mem_cons_self _ _)).1.2.2
      have := ih (fun a ha => hm a (List.mem_cons_of_mem _ ha))
      simp only [List.map_cons, List.sum_cons, contentsOf, List.flatMap_cons,
        List.length_append, TypeBag.entities, List.length_map] at this ⊢
      rw [this, he]
  exact h s.typeBags hs.2

theorem advance_end (s : EntityBag α) : iterator.advance s s.end_ = none := by
  simp [iterator.advance, EntityBag.end_]

theorem advanceN_add (s : EntityBag α) (a b : Nat) :
    ∀ it, iterator.advanceN s (a + b) it =
      (iterator.advanceN s a it).bind (iterator.advanceN s b) := by
  induction a with
  | zero => intro it; simp [iterator.advanceN]
  | succ a ih =>
    intro it
    rw [Nat.succ_add]
    simp only [iterator.advanceN]
    cases h : iterator.advance s it with
    | none => rfl
    | some it' => simp [ih it']

theorem advanceN_end_succ (s : EntityBag α) (n : Nat) :
    iterator.advanceN s (n + 1) s.end_ = none := by
  simp [iterator.advanceN, advance_end]

/-- From a position inside a bag, as many applications of `operator++` as objects remain lead
to `end()`; fewer lead to a position inside a bag. -/
theorem advanceN_at {s : EntityBag α} (hs : s.WF) (ha : s.InAddressSpace) (r : Nat) :
    ∀ (c i : Nat) (e : TypeId × TypeBag α), s.typeBags[c]? = some e →
      i < e.2.elems.items.length →
      (e.2.entities.drop i ++ contentsOf (s.typeBags.drop (c + 1))).length = r →
      iterator.advanceN s r ⟨c, i⟩ = some s.end_ ∧
      ∀ n, n < r → ∃ it, iterator.advanceN s n ⟨c, i⟩ = some it ∧ it ≠ s.end_ ∧
        it.InRange s := by
  induction r with
  | zero =>
    intro c i e _ hi hlen
    have : i < e.2.entities.length := by simpa [TypeBag.entities] using hi
    simp only [List.length_append, List.length_drop] at hlen
    omega
  | succ r ih =>
    intro c i e he hi hlen
    have hc : c < s.typeBags.length := (List.getElem?_eq_some.mp he).1
    have hne : (⟨c, i⟩ : iterator) ≠ s.end_ := by
      intro h
      have := congrArg iterator.currentTypeBag h
      simp only [EntityBag.end_] at this
      omega
    have hsize : e.2.size = e.2.elems.items.length := (hs.2 e (List.getElem?_mem he)).1.2.2
    have hin : iterator.InRange s ⟨c, i⟩ := ⟨e, he, by rw [hsize]; exact hi⟩
    have hel : e.2.entities.length = e.2.elems.items.length := by simp [TypeBag.entities]
    have hstep := advance_at hs ha he hi
    have key : ∀ it', iterator.advance s ⟨c, i⟩ = some it' →
        (iterator.advanceN s r it' = some s.end_ ∧
          ∀ n, n < r → ∃ it, iterator.advanceN s n it' = some it ∧ it ≠ s.end_ ∧
            it.InRange s) →
        iterator.advanceN s (r + 1) ⟨c, i⟩ = some s.end_ ∧
        ∀ n, n < r + 1 → ∃ it, iterator.advanceN s n ⟨c, i⟩ = some it ∧ it ≠ s.end_ ∧
          it.InRange s := by
      intro it' hadv hrest
      refine ⟨by simp [iterator.advanceN, hadv, hrest.1], ?_⟩
      intro n hn
      cases n with
      | zero => exact ⟨⟨c, i⟩, rfl, hne, hin⟩
      | succ n =>
        obtain ⟨it, h1, h2⟩ := hrest.2 n (by omega)
        exact ⟨it, by simp [iterator.advanceN, hadv, h1], h2⟩
    by_cases hnext : i + 1 < e.2.elems.items.length
    · simp only [hnext, if_true] at hstep
      refine key _ hstep (ih c (i + 1) e he hnext ?_)
      rw [List.length_append, List.length_drop] at hlen ⊢
      omega
    · simp only [hnext, if_false] at hstep
      have hnil : (e.2.entities.drop i).length = 1 := by
        rw [List.length_drop]; omega
      rw [List.length_append, hnil] at hlen
      cases he' : s.typeBags[c + 1]? with
      | none =>
        have hlen' : s.typeBags.length ≤ c + 1 := List.getElem?_eq_none_iff.mp he'
        have hend : (⟨c + 1, 0⟩ : iterator) = s.end_ := by
          simp only [EntityBag.end_]
          congr 1; omega
        have hr : r = 0 := by
          rw [List.drop_eq_nil_of_le hlen'] at hlen
          simp [contentsOf] at hlen
          omega
        subst hr
        refine key _ hstep ⟨by rw [hend]; rfl, fun n hn => absurd hn (Nat.not_lt_zero _)⟩
      | some e' =>
        have hc' : c + 1 < s.typeBags.length := (List.getElem?_eq_some.mp he').1
        have hd : s.typeBags.drop (c + 1) = e' :: s.typeBags.drop (c + 1 + 1) := by
          rw [List.drop_eq_getElem_cons hc']
          congr 1
          exact (List.getElem?_eq_some.mp he').2
        have hfill := (hs.2 e' (List.getElem?_mem he')).2
        have hpos : 0 < e'.2.elems.items.length := List.length_pos.mpr hfill
        refine key _ hstep (ih (c + 1) 0 e' he' hpos ?_)
        rw [hd] at hlen
        simp only [contentsOf, List.flatMap_cons, List.length_append] at hlen
        simp only [List.drop_zero, List.length_append, contentsOf]
        omega

/-- In a well-formed container inside the address space, `total` applications of `operator++`
lead from `begin()` to `end()` and fewer lead to a position inside a bag. -/
theorem advanceN_begin {s : EntityBag α} (hs : s.WF) (ha : s.InAddressSpace) :
    iterator.advanceN s s.total s.begin = some s.end_ ∧
    ∀ n, n < s.total → ∃ it, iterator.advanceN s n s.begin = some it ∧ it ≠ s.end_ ∧
      it.InRange s := by
  rw [total_eq_length_contents hs]
  unfold EntityBag.begin
  cases he : s.typeBags[0]? with
  | none =>
    have hlen : s.typeBags.length ≤ 0 := List.getElem?_eq_none_iff.mp he
    have hnil : s.typeBags = [] := List.length_eq_zero.mp (Nat.le_zero.mp hlen)
    have hend : (⟨0, 0⟩ : iterator) = s.end_ := by simp [EntityBag.end_, hnil]
    have h0 : s.contents.length = 0 := by simp [EntityBag.contents, contentsOf, hnil]
    rw [h0]
    exact ⟨by rw [hend]; rfl, fun n hn => absurd hn (Nat.not_lt_zero _)⟩
  | some e =>
    have hc : 0 < s.typeBags.length := (List.getElem?_eq_some.mp he).1
    have hd : s.typeBags = e :: s.typeBags.drop 1 := by
      have := List.drop_eq_getElem_cons hc
      rw [List.drop_zero] at this
      rw [this]
      congr 1
      exact (List.getElem?_eq_some.mp he).2
    have hfill := (hs.2 e (List.getElem?_mem he)).2
    have hpos : 0 < e.2.elems.items.length := List.length_pos.mpr hfill
    have hcont : s.contents = e.2.entities.drop 0 ++ contentsOf (s.typeBags.drop (0 + 1)) := by
      unfold EntityBag.contents
      conv_lhs => rw [hd]
      simp [contentsOf]
    exact advanceN_at hs ha s.contents.length 0 0 e he hpos (by rw [← hcont])

end stepping

/-- C12. In a container reached by emplace calls, with `N` the total of `size()` over all
buckets: `N` applications of `operator++` lead from `begin()` to `end()`, every iterator
obtained with fewer applications differs from `end()`, the traversal loop ends after visiting
exactly `N` objects, and `begin()` equals `end()` when nothing is stored. -/
theorem begin_reaches_end_after_total_steps {α : Type} (P : Platform α)
    (calls : List (Call α)) (s : EntityBag α) (hrun : run P EntityBag.empty calls = some s)
    (ha : s.InAddressSpace) :
    iterator.advanceN s s.total s.begin = some s.end_ ∧
    (∀ n, n < s.total → ∃ it, iterator.advanceN s n s.begin = some it ∧ it ≠ s.end_) ∧
    (∃ objs, traversal s s.total = some objs ∧ objs.length = s.total) ∧
    (s.total = 0 → s.begin = s.end_) ∧
    (EntityBag.empty : EntityBag α).begin = (EntityBag.empty : EntityBag α).end_ := by
  have hwf := run_wf P hrun
  obtain ⟨h1, h2⟩ := advanceN_begin hwf ha
  refine ⟨h1, ?_, ?_, ?_, rfl⟩
  · intro n hn
    obtain ⟨it, hit, hne, _⟩ := h2 n hn
    exact ⟨it, hit, hne⟩
  · have ht := total_eq_length_contents hwf
    exact ⟨s.contents, traversal_eq_contents hwf ha (by rw [ht]), ht.symm⟩
  · intro h0
    rw [h0] at h1
    simp only [iterator.advanceN, Option.some.injEq] at h1
    exact h1

/-- The container after the calls of `main` holds eight objects: eight steps reach `end()`,
seven do not. -/
theorem begin_reaches_end_after_total_steps_witness :
    ∃ s, run frontPlatform EntityBag.empty mainCalls = some s ∧ s.InAddressSpace ∧
      s.total = 8 ∧ iterator.advanceN s 8 s.begin = some s.end_ ∧
      (∃ it, iterator.advanceN s 7 s.begin = some it ∧ it ≠ s.end_) ∧
      ∃ objs, traversal s 8 = some objs ∧ objs.length = 8 := by
  have ha : ((run frontPlatform EntityBag.empty mainCalls).getD
      EntityBag.empty).InAddressSpace := by decide
  have ht : ((run frontPlatform EntityBag.empty mainCalls).getD EntityBag.empty).total = 8 := by
    decide
  obtain ⟨h1, h2, h3, _⟩ := begin_reaches_end_after_total_steps frontPlatform mainCalls
    ((run frontPlatform EntityBag.empty mainCalls).getD EntityBag.empty) rfl ha
  rw [ht] at h1 h2 h3
  exact ⟨_, rfl, ha, ht, h1, h2 7 (by decide), h3⟩

/-- C13. In a container reached by emplace calls, every iterator obtained from `begin()` by
repeated `operator++` that differs from `end()` points at an existing bucket with
`currentElementIndex` below that bucket's `size()`; `operator*` gives a pointer behind which a
stored object lies. -/
theorem reached_iterator_is_in_range {α : Type} (P : Platform α) (calls : List (Call α))
    (s : EntityBag α) (hrun : run P EntityBag.empty calls = some s) (ha : s.InAddressSpace)
    (n : Nat) (it : iterator) (hit : iterator.advanceN s n s.begin = some it)
    (hne : it ≠ s.end_) :
    it.InRange s ∧ ∃ addr o, it.star s = some addr ∧ it.deref s = some o := by
  have hwf := run_wf P hrun
  obtain ⟨h1, h2⟩ := advanceN_begin hwf ha
  have hin : it.InRange s := by
    rcases Nat.lt_trichotomy n s.total with hlt | heq | hgt
    · obtain ⟨it', hit', _, hr⟩ := h2 n hlt
      rw [hit] at hit'
      cases hit'
      exact hr
    · rw [heq, h1] at hit
      cases hit
      exact absurd rfl hne
    · obtain ⟨k, hk⟩ : ∃ k, n = s.total + (k + 1) := ⟨n - s.total - 1, by omega⟩
      rw [hk, advanceN_add, h1] at hit
      simp only [Option.some_bind, advanceN_end_succ] at hit
      cases hit
  refine ⟨hin, ?_⟩
  obtain ⟨e, he, hidx⟩ := hin
  have hsize : e.2.size = e.2.elems.items.length := (hwf.2 e (List.getElem?_mem he)).1.2.2
  rw [hsize] at hidx
  exact ⟨e.2.entity it.currentElementIndex, _, by simp [iterator.star, he],
    deref_at hwf ha he hidx⟩

/-- Five steps into the container left by the calls of `main`. -/
theorem reached_iterator_is_in_range_witness :
    ∃ s it, run frontPlatform EntityBag.empty mainCalls = some s ∧ s.InAddressSpace ∧
      iterator.advanceN s 5 s.begin = some it ∧ it ≠ s.end_ ∧ it = ⟨1, 1⟩ ∧
      it.InRange s ∧ it.deref s = some ⟨0, 24⟩ := by
  have ha : ((run frontPlatform EntityBag.empty mainCalls).getD
      EntityBag.empty).InAddressSpace := by decide
  have hit : iterator.advanceN ((run frontPlatform EntityBag.empty mainCalls).getD
      EntityBag.empty) 5 ((run frontPlatform EntityBag.empty mainCalls).getD
      EntityBag.empty).begin = some ⟨1, 1⟩ := by decide
  have h := reached_iterator_is_in_range frontPlatform mainCalls
    ((run frontPlatform EntityBag.empty mainCalls).getD EntityBag.empty) rfl ha 5 ⟨1, 1⟩ hit
    (by decide)
  exact ⟨_, _, rfl, ha, hit, by decide, rfl, h.1, by decide⟩

/-- C14. On a bucket `b` with `size()` representable in `size_t` and an index `i` below it,
`operator++` gives `(b, i + 1)` when `i < size() - 1` and `(bucket after b, 0)` otherwise; from
the last index of the last bucket this is `end()`, whose index is `0`. -/
theorem advance_steps_within_or_to_next {α : Type} (s : EntityBag α) (c i : Nat)
    (e : TypeId × TypeBag α) (he : s.typeBags[c]? = some e) (hsz : e.2.size < wordMod)
    (hi : i < e.2.size) :
    iterator.advance s ⟨c, i⟩ = some (if i < e.2.size - 1 then ⟨c, i + 1⟩ else ⟨c + 1, 0⟩) ∧
    (¬ i < e.2.size - 1 → c + 1 = s.typeBags.length →
      iterator.advance s ⟨c, i⟩ = some s.end_ ∧ s.end_.currentElementIndex = 0) := by
  have hw : wordMod = 2 ^ 64 := rfl
  have hsub : (e.2.size + wordMod - 1) % wordMod = e.2.size - 1 := by
    rw [hw] at hsz ⊢; omega
  have hmain : iterator.advance s ⟨c, i⟩ =
      some (if i < e.2.size - 1 then ⟨c, i + 1⟩ else ⟨c + 1, 0⟩) := by
    simp only [iterator.advance, he, hsub]
    by_cases h : i < e.2.size - 1
    · have h2 : (i + 1) % wordMod = i + 1 := Nat.mod_eq_of_lt (by omega)
      simp [h, h2]
    · simp [h]
  refine ⟨hmain, fun hlast hc => ⟨?_, rfl⟩⟩
  rw [hmain]
  simp [hlast, EntityBag.end_, hc]

/-- Both cases on the container left by the calls of `main`: inside the first bucket, and from
the last index of the last bucket. -/
theorem advance_steps_within_or_to_next_witness :
    ∃ s, run frontPlatform EntityBag.empty mainCalls = some s ∧
      iterator.advance s ⟨0, 1⟩ = some ⟨0, 2⟩ ∧ iterator.advance s ⟨0, 3⟩ = some ⟨1, 0⟩ ∧
      iterator.advance s ⟨1, 3⟩ = some s.end_ := by
  have he0 : ((run frontPlatform EntityBag.empty mainCalls).getD EntityBag.empty).typeBags[0]? =
      some (1, TypeBag.mk 1 8448 4 16 (StdVector.mk 16 8448 [1, 2, 3, 4])) := by decide
  have he1 : ((run frontPlatform EntityBag.empty mainCalls).getD EntityBag.empty).typeBags[1]? =
      some (0, TypeBag.mk 0 4352 4 8 (StdVector.mk 8 4352 [12, 24, 35, 46])) := by decide
  have h1 := advance_steps_within_or_to_next _ 0 1 _ he0 (by decide) (by decide)
  have h2 := advance_steps_within_or_to_next _ 0 3 _ he0 (by decide) (by decide)
  have h3 := advance_steps_within_or_to_next _ 1 3 _ he1 (by decide) (by decide)
  exact ⟨_, rfl, h1.1, h2.1, (h3.2 (by decide) (by decide)).1⟩

/-- C15. In a container reached by typed and erased emplace calls from the empty one, every
bucket of the registry holds at least one element: its `size()` is at least `1` and its vector
is not empty. -/
theorem reachable_buckets_are_not_empty {α : Type} (P : Platform α) (calls : List (Call α))
    (s : EntityBag α) (hrun : run P EntityBag.empty calls = some s) :
    ∀ e ∈ s.typeBags, 1 ≤ e.2.size ∧ e.2.elems.items ≠ [] := by
  have hwf := run_wf P hrun
  intro e he
  obtain ⟨hsy, hne⟩ := hwf.2 e he
  have hsize : e.2.size = e.2.elems.items.length := hsy.2.2
  exact ⟨by rw [hsize]; exact List.length_pos.mpr hne, hne⟩

/-- The container left by the calls of `main` has buckets, none of them empty. -/
theorem reachable_buckets_are_not_empty_witness :
    ∃ s, run frontPlatform EntityBag.empty mainCalls = some s ∧ s.typeBags.length = 2 ∧
      ∀ e ∈ s.typeBags, 1 ≤ e.2.size ∧ e.2.elems.items ≠ [] :=
  ⟨_, rfl, by decide, reachable_buckets_are_not_empty frontPlatform mainCalls _ rfl⟩

/-- C16, as the claim states it, fails on a registry whose first bucket has no element:
`begin()` is not `end()` and sits on that bucket, whose `size()` is `0`, and `operator++`
applied there keeps the bucket cursor and increments the index, because `size() - 1` is
`2 ^ 64 - 1` in `size_t`. -/
theorem iterator_stays_on_empty_bucket :
    emptyBucketBag.begin ≠ emptyBucketBag.end_ ∧
    (emptyBucketBag.typeBags[emptyBucketBag.begin.currentTypeBag]?).map (fun e => e.2.size) =
      some 0 ∧
    iterator.advance emptyBucketBag emptyBucketBag.begin = some ⟨0, 1⟩ ∧
    (emptyBucketBag.typeBags[(0 : Nat)]?).map (fun e => (e.2.size + wordMod - 1) % wordMod) =
      some (2 ^ 64 - 1) := by
  decide

/-- C16, amended. In every registry state in which each bucket holds at least one element and
each `size()` is representable in `size_t` (so in every state reached by emplace calls),
`begin()` and `operator++` never leave the iterator on a bucket whose `size()` is `0`:
`begin()` is `end()` or lies in range of a bucket, and `operator++` applied in range of a bucket
gives `end()` or an iterator in range of a bucket, the bucket cursor moving forward exactly
from the last index of a bucket. -/
theorem iterator_avoids_empty_buckets_without_them {α : Type} (s : EntityBag α)
    (hfull : ∀ e ∈ s.typeBags, 0 < e.2.size ∧ e.2.size < wordMod) :
    (s.begin = s.end_ ∨ s.begin.InRange s) ∧
    ∀ it : iterator, it.InRange s →
      ∃ it', it.advance s = some it' ∧ (it' = s.end_ ∨ it'.InRange s) ∧
        (∀ e, s.typeBags[it.currentTypeBag]? = some e →
          (it'.currentTypeBag = it.currentTypeBag + 1 ↔
            ¬ it.currentElementIndex < e.2.size - 1)) := by
  have hnext : ∀ c : Nat, (⟨c, 0⟩ : iterator) = s.end_ ∨ c < s.typeBags.length →
      (⟨c, 0⟩ : iterator) = s.end_ ∨ iterator.InRange s ⟨c, 0⟩ := by
    intro c hc
    rcases hc with h | h
    · exact Or.inl h
    · refine Or.inr ⟨s.typeBags[c], List.getElem?_eq_getElem h, ?_⟩
      exact (hfull _ (List.getElem_mem h)).1
  constructor
  · by_cases h : 0 < s.typeBags.length
    · exact hnext 0 (Or.inr h)
    · have hnil : s.typeBags = [] := List.length_eq_zero.mp (by omega)
      exact Or.inl (by simp [EntityBag.begin, EntityBag.end_, hnil])
  · rintro ⟨c, i⟩ ⟨e, he, hi⟩
    simp only at he hi
    have hc : c < s.typeBags.length := (List.getElem?_eq_some.mp he).1
    have hsz := (hfull e (List.getElem?_mem he)).2
    have hw : wordMod = 2 ^ 64 := rfl
    have hsub : (e.2.size + wordMod - 1) % wordMod = e.2.size - 1 := by
      rw [hw] at hsz ⊢; omega
    by_cases h : i < e.2.size - 1
    · have h2 : (i + 1) % wordMod = i + 1 := Nat.mod_eq_of_lt (by omega)
      refine ⟨⟨c, i + 1⟩, by simp [iterator.advance, he, hsub, h, h2],
        Or.inr ⟨e, he, by show i + 1 < e.2.size; omega⟩, ?_⟩
      intro e' he'
      rw [he] at he'
      cases he'
      simp [h]
    · refine ⟨⟨c + 1, 0⟩, by simp [iterator.advance, he, hsub, h], ?_, ?_⟩
      · apply hnext
        by_cases hlast : c + 1 < s.typeBags.length
        · exact Or.inr hlast
        · refine Or.inl ?_
          have hlen : c + 1 = s.typeBags.length := by omega
          simp only [EntityBag.end_, hlen]
      · intro e' he'
        rw [he] at he'
        cases he'
        simp [h]

/-- The container left by the calls of `main`: no bucket is empty, `begin()` lies in range and
`operator++` from the last index of the first bucket lands in range of the second. -/
theorem iterator_avoids_empty_buckets_without_them_witness :
    ∃ s, run frontPlatform EntityBag.empty mainCalls = some s ∧
      (∀ e ∈ s.typeBags, 0 < e.2.size ∧ e.2.size < wordMod) ∧
      s.begin ≠ s.end_ ∧ s.begin.InRange s ∧
      ∃ it', iterator.advance s ⟨0, 3⟩ = some it' ∧ it' = ⟨1, 0⟩ ∧ it'.InRange s := by
  have hfull : ∀ e ∈ ((run frontPlatform EntityBag.empty mainCalls).getD
      EntityBag.empty).typeBags, 0 < e.2.size ∧ e.2.size < wordMod := by decide
  obtain ⟨hb, hstep⟩ := iterator_avoids_empty_buckets_without_them
    ((run frontPlatform EntityBag.empty mainCalls).getD EntityBag.empty) hfull
  have hne : ((run frontPlatform EntityBag.empty mainCalls).getD EntityBag.empty).begin ≠
      ((run frontPlatform EntityBag.empty mainCalls).getD EntityBag.empty).end_ := by decide
  have hin : iterator.InRange ((run frontPlatform EntityBag.empty mainCalls).getD
      EntityBag.empty) ⟨0, 3⟩ := ⟨_, rfl, by decide⟩
  obtain ⟨it', h1, h2, _⟩ := hstep ⟨0, 3⟩ hin
  have h3 : iterator.advance ((run frontPlatform EntityBag.empty mainCalls).getD
      EntityBag.empty) ⟨0, 3⟩ = some ⟨1, 0⟩ := by decide
  have h4 : it' = ⟨1, 0⟩ := by
    rw [h1] at h3
    cases h3
    rfl
  refine ⟨_, rfl, hfull, hne, hb.resolve_left hne, it', h1, h4, h2.resolve_left ?_⟩
  rw [h4]
  decide

/-- C17. After any sequence of emplace calls on an empty container, the objects yielded by a
full traversal are a permutation of the objects the successful calls inserted: none is lost,
none comes twice, none was never inserted. -/
theorem traversal_is_permutation_of_inserted {α : Type} (P : Platform α)
    (calls : List (Call α)) :
    ∃ s, run P EntityBag.empty calls = some s ∧
      (s.InAddressSpace → ∀ fuel, succeeded P EntityBag.empty calls ≤ fuel →
        ∃ objs, traversal s fuel = some objs ∧
          objs.Perm (inserted P EntityBag.empty calls)) := by
  obtain ⟨s, hrun, hwf, hperm, _⟩ := run_from_empty P calls
  refine ⟨s, hrun, fun ha fuel hfuel => ⟨s.contents, ?_, hperm⟩⟩
  apply traversal_eq_contents hwf ha
  rw [hperm.length_eq, ← succeeded_eq]; exact hfuel

/-- The calls of `main` after a failing erased `emplace`, on a map that puts new keys in front:
the traversal is a rearrangement of the eight inserted objects. -/
theorem traversal_is_permutation_of_inserted_witness :
    ∃ s, run frontPlatform EntityBag.empty (Call.erased ⟨2, 9⟩ :: mainCalls) = some s ∧
      s.InAddressSpace ∧
      ∃ objs, traversal s 8 = some objs ∧
        objs.Perm [⟨0, 12⟩, ⟨1, 1⟩, ⟨0, 24⟩, ⟨0, 35⟩, ⟨1, 2⟩, ⟨0, 46⟩, ⟨1, 3⟩, ⟨1, 4⟩] := by
  obtain ⟨s, hrun, h⟩ :=
    traversal_is_permutation_of_inserted frontPlatform (Call.erased ⟨2, 9⟩ :: mainCalls)
  have hs : s = (run frontPlatform EntityBag.empty
      (Call.erased ⟨2, 9⟩ :: mainCalls)).getD EntityBag.empty := by rw [hrun]; rfl
  have ha : s.InAddressSpace := by rw [hs]; decide
  obtain ⟨objs, h1, h2⟩ := h ha 8 (by decide)
  exact ⟨s, hrun, ha, objs, h1, h2⟩
